import Mathlib

/-!
Verification of the recursive tree-copy/delete engine ("TreeOp") of the
upspin/augie repository (cmd/upspin-ui).

The embedded code is:
  * `copy` / `copyEntry` (browser copy handler): recursive copy of source
    entries into a destination directory, using MakeDirectory, Glob,
    PutLink and PutDuplicate;
  * `rm` / `rmEntry` (browser delete handler): recursive post-order
    delete using Glob and Delete.

The NamespaceClient the engine calls into (Lookup, Glob, MakeDirectory,
Delete, PutDuplicate, PutLink) is an external collaborator (the upspin.io
client); it is modelled here as a small state machine over an
association-list namespace, following the interface contracts stated in
the specification (section 6): Lookup fails with NotFound on an absent
path; Glob returns direct children only and may return the ErrFollowLink
sentinel together with the entries obtained (it does so when one of the
matched children is a link, which is exactly when the upspin directory
server reports ErrFollowLink for a single-level pattern); MakeDirectory
fails if the path already exists; Delete fails on a non-empty directory;
PutDuplicate creates a destination entry referencing the same content as
the source without copying bytes; PutLink creates a link entry.

The interpreter is fuel-indexed so that all definitions are structurally
recursive and computable.
-/

namespace TreeOp

/-- An upspin path: the owning user plus the ordered list of path
elements (`path.Parsed` in the Go code). A path with no elements is a
user root. -/
structure Path where
  user : String
  elems : List String
deriving DecidableEq, Repr

/-- Go `p.HasPrefix(q)`: `q` is a prefix of `p` (same user, and the
elements of `q` are an initial segment of those of `p`). -/
def Path.hasPfx (p q : Path) : Bool :=
  p.user == q.user && q.elems.isPrefixOf p.elems

/-- Go `p.NElem()`. -/
def Path.nElem (p : Path) : Nat := p.elems.length

/-- Go `path.Join(p, e)`: append one element. -/
def Path.join (p : Path) (e : String) : Path := ⟨p.user, p.elems ++ [e]⟩

/-- The last element of a path (`p.Elem(p.NElem()-1)` in the Go code,
which is only evaluated on non-root paths). -/
def Path.lastE (p : Path) : String := p.elems.getLastD ""

/-- A namespace object: directory, link (with target path), or file
(with an opaque content-block reference). -/
inductive Node where
  | dir : Node
  | link : Path → Node
  | file : Nat → Node
deriving DecidableEq, Repr

/-- Go `DirEntry.IsDir`. -/
def Node.isDir : Node → Bool
  | .dir => true
  | _ => false

/-- Go `DirEntry.IsLink`. -/
def Node.isLink : Node → Bool
  | .link _ => true
  | _ => false

/-- Errors visible to the TreeOp engine.  `notFound`, `notDir`, `exist`,
`notEmpty` and `followLink` come from the namespace client;
`cannotCopyRoot` and `cannotCopyIntoSubdir` are the two guard errors
raised by `copyEntry` itself (the spec's `InvalidArgument` class);
`deleteFailed` models an injected service failure of Delete;
`linkLoop` models a link chain that never resolves; `outOfFuel` is the
interpreter's artificial bound. -/
inductive Err where
  | notFound : Path → Err
  | notDir : Path → Err
  | exist : Path → Err
  | notEmpty : Path → Err
  | cannotCopyRoot : Path → Err
  | cannotCopyIntoSubdir : Path → Err
  | followLink : Err
  | deleteFailed : Path → Err
  | linkLoop : Path → Err
  | outOfFuel : Err
deriving DecidableEq, Repr

/-- The spec's `InvalidArgument` error class: the two argument-rejection
errors raised by `copyEntry` (root source; destination inside the
source). -/
def Err.isInvalidArgument : Err → Bool
  | .cannotCopyRoot _ => true
  | .cannotCopyIntoSubdir _ => true
  | _ => false

/-- An observable mutation event, recorded in order of occurrence:
directory creation, duplicate-put of a file, link creation, deletion. -/
inductive Ev where
  | mkdir : Path → Ev
  | put : Path → Path → Ev
  | putlink : Path → Path → Ev
  | del : Path → Ev
deriving DecidableEq, Repr

/-- The namespace: a finite association list from paths to nodes. -/
abbrev Namespace := List (Path × Node)

/-- Look a path up in the namespace (first binding wins). -/
def nsLookup (ns : Namespace) (p : Path) : Option Node :=
  match ns with
  | [] => none
  | (q, n) :: rest => if q = p then some n else nsLookup rest p

/-- Bind `p` to `n`, replacing any previous binding. -/
def nsSet (ns : Namespace) (p : Path) (n : Node) : Namespace :=
  (p, n) :: ns.filter (fun e => !decide (e.1 = p))

/-- Remove any binding of `p`. -/
def nsDel (ns : Namespace) (p : Path) : Namespace :=
  ns.filter (fun e => !decide (e.1 = p))

/-- `c` is a direct child of `p`: one element longer, `p` a prefix. -/
def isChildOf (c p : Path) : Bool :=
  c.user == p.user && (c.elems.length == p.elems.length + 1)
    && p.elems.isPrefixOf c.elems

/-- The direct children of `p` (what the single-level glob pattern
`p/*` matches). -/
def globChildren (ns : Namespace) (p : Path) : List (Path × Node) :=
  ns.filter (fun e => isChildOf e.1 p)

/-- The interpreter state: the namespace, the set of paths whose Delete
is injected to fail (modelling a service-side failure), and the event
trace. -/
structure St where
  ns : Namespace
  failDelete : List Path
  events : List Ev
deriving DecidableEq, Repr

/-- DirServer `Glob(p/*)`: the direct children, together with the
ErrFollowLink sentinel when one of the matched children is a link
(the directory server cannot expand through links; the entries obtained
so far are still returned). -/
def globOp (ns : Namespace) (p : Path) : List (Path × Node) × Option Err :=
  let cs := globChildren ns p
  (cs, if cs.any (fun e => e.2.isLink) then some .followLink else none)

/-- Client `MakeDirectory`: fails with Exist if the path is already
bound, otherwise binds it to a directory and records the event. -/
def mkDirOp (st : St) (p : Path) : Option Err × St :=
  match nsLookup st.ns p with
  | some _ => (some (.exist p), st)
  | none =>
      (none, { st with ns := nsSet st.ns p .dir,
                       events := st.events ++ [.mkdir p] })

/-- Client `PutDuplicate src dst`: re-binds `dst` to the very node bound
to `src` (same content reference, no bytes copied); fails with NotFound
if `src` is absent. -/
def putDupOp (st : St) (src dst : Path) : Option Err × St :=
  match nsLookup st.ns src with
  | none => (some (.notFound src), st)
  | some n =>
      (none, { st with ns := nsSet st.ns dst n,
                       events := st.events ++ [.put src dst] })

/-- Client `PutLink target dst`: bind `dst` to a link with the given
target (the target is not resolved). -/
def putLinkOp (st : St) (target dst : Path) : Option Err × St :=
  (none, { st with ns := nsSet st.ns dst (.link target),
                   events := st.events ++ [.putlink target dst] })

/-- Membership of a path in a path list (Bool). -/
def pathMem (p : Path) (l : List Path) : Bool := l.any (fun q => q == p)

/-- Client `Delete p`: fails when injected to fail, when `p` is absent
(NotFound), or when `p` is a directory that still has children
(NotEmpty); otherwise unbinds `p` and records the event. -/
def deleteOp (st : St) (p : Path) : Option Err × St :=
  if pathMem p st.failDelete then (some (.deleteFailed p), st)
  else
    match nsLookup st.ns p with
    | none => (some (.notFound p), st)
    | some .dir =>
        if (globChildren st.ns p).isEmpty then
          (none, { st with ns := nsDel st.ns p,
                           events := st.events ++ [.del p] })
        else (some (.notEmpty p), st)
    | some _ =>
        (none, { st with ns := nsDel st.ns p,
                         events := st.events ++ [.del p] })

/-- Client `Lookup p followFinal`: find the binding of `p`; when
`followFinal` is set and the binding is a link, resolve the target
(with a fuel bound on the length of the link chain). -/
def resolve (ns : Namespace) (fuel : Nat) (p : Path) :
    Except Err (Path × Node) :=
  match nsLookup ns p with
  | none => .error (.notFound p)
  | some (.link t) =>
      match fuel with
      | 0 => .error (.linkLoop p)
      | f + 1 => resolve ns f t
  | some n => .ok (p, n)

/-- Run `f` over the entries in order, stopping at the first error
(the shape of the Go `for … { if err := …; err != nil { return err } }`
loops in `copyEntry` and `rmEntry`). -/
def runList (f : St → Path × Node → Option Err × St) :
    St → List (Path × Node) → Option Err × St
  | st, [] => (none, st)
  | st, de :: rest =>
      match f st de with
      | (some e, st1) => (some e, st1)
      | (none, st1) => runList f st1 rest

/-- The kind dispatch of Go `copyEntry` (the `switch` after the two
guards): `rec` is the recursive call used for the children of a
directory.  A directory is first created at the destination, then the
source's direct children are obtained with a single-level Glob — an
ErrFollowLink result is tolerated (`err != upspin.ErrFollowLink`), any
other Glob error aborts — and each child is copied into the new
directory.  A link is duplicated with PutLink; everything else is
duplicated with PutDuplicate. -/
def copyDispatch (rec : St → Path → Path → Node → Option Err × St)
    (st : St) (dstDir srcName : Path) (srcNode : Node) : Option Err × St :=
  let dst := dstDir.join srcName.lastE
  match srcNode with
  | .dir =>
      match mkDirOp st dst with
      | (some e, st1) => (some e, st1)
      | (none, st1) =>
          let d := globOp st1.ns srcName
          match d.2 with
          | some e =>
              if e = Err.followLink then
                runList (fun s2 de => rec s2 dst de.1 de.2) st1 d.1
              else (some e, st1)
          | none => runList (fun s2 de => rec s2 dst de.1 de.2) st1 d.1
  | .link t => putLinkOp st t dst
  | .file _ => putDupOp st srcName dst

/-- Go `copyEntry(dstDir, srcEntry)`: reject a root source; reject a
destination that lies inside the source (`dstDirPath.HasPrefix(srcPath)`);
otherwise dispatch on the entry kind.  Fuel-indexed to bound the
recursion into directory children. -/
def copyEntry : Nat → St → Path → Path → Node → Option Err × St
  | 0, st, _, _, _ => (some .outOfFuel, st)
  | fuel + 1, st, dstDir, srcName, srcNode =>
      if srcName.nElem = 0 then (some (.cannotCopyRoot srcName), st)
      else if dstDir.hasPfx srcName then
        (some (.cannotCopyIntoSubdir srcName), st)
      else
        copyDispatch (fun s2 d p n => copyEntry fuel s2 d p n)
          st dstDir srcName srcNode

/-- The source loop of Go `copy`: look each source up without following
a final link, copy it, and stop at the first error. -/
def copySrcs (fuel : Nat) (st : St) (dst : Path) :
    List Path → Option Err × St
  | [] => (none, st)
  | src :: rest =>
      match nsLookup st.ns src with
      | none => (some (.notFound src), st)
      | some n =>
          match copyEntry fuel st dst src n with
          | (some e, st1) => (some e, st1)
          | (none, st1) => copySrcs fuel st1 dst rest

/-- Go `copy(dst, srcs)`: check that the destination resolves (following
links) and is a directory — returning the lookup error, or NotDir —
then copy the sources in order. -/
def copy (fuel : Nat) (st : St) (dst : Path) (srcs : List Path) :
    Option Err × St :=
  match resolve st.ns st.ns.length dst with
  | .error e => (some e, st)
  | .ok (_, n) =>
      if n.isDir then copySrcs fuel st dst srcs
      else (some (.notDir dst), st)

/-- Go `rmEntry(de)`: for a directory, obtain the direct children with a
single-level Glob — any Glob error (including ErrFollowLink) aborts —
recursively remove each child, and only then Delete the directory
itself; for anything else Delete directly. -/
def rmEntry : Nat → St → Path → Node → Option Err × St
  | 0, st, _, _ => (some .outOfFuel, st)
  | fuel + 1, st, name, node =>
      if node.isDir then
        let d := globOp st.ns name
        match d.2 with
        | some e => (some e, st)
        | none =>
            match runList (fun s2 de => rmEntry fuel s2 de.1 de.2) st d.1 with
            | (some e, st1) => (some e, st1)
            | (none, st1) => deleteOp st1 name
      else deleteOp st name

/-- Go `rm(name)`: look the path up without following a final link
(returning the lookup error if it fails) and remove the entry. -/
def rm (fuel : Nat) (st : St) (name : Path) : Option Err × St :=
  match nsLookup st.ns name with
  | none => (some (.notFound name), st)
  | some n => rmEntry fuel st name n

/-! ## Basic namespace lemmas -/

/-- Dropping the bindings of `p` does not change lookups at `q ≠ p`. -/
lemma nsLookup_filter_ne (ns : Namespace) (p q : Path) (hq : q ≠ p) :
    nsLookup (ns.filter (fun e => !decide (e.1 = p))) q = nsLookup ns q := by
  induction ns with
  | nil => rfl
  | cons e rest ih =>
      rcases e with ⟨ep, en⟩
      have h3 : ¬ p = q := fun h => hq h.symm
      by_cases he : ep = p
      · simp [List.filter_cons, he, nsLookup, h3, ih]
      · by_cases h2 : ep = q
        · simp [List.filter_cons, he, nsLookup, h2, hq, ih]
        · simp [List.filter_cons, he, nsLookup, h2, ih]

/-- After `nsSet ns p n`, looking `p` up yields `n`. -/
lemma nsLookup_set_self (ns : Namespace) (p : Path) (n : Node) :
    nsLookup (nsSet ns p n) p = some n := by
  simp [nsSet, nsLookup]

/-- After `nsSet ns p n`, lookups at `q ≠ p` are unchanged. -/
lemma nsLookup_set_other (ns : Namespace) (p : Path) (n : Node) (q : Path)
    (hq : q ≠ p) : nsLookup (nsSet ns p n) q = nsLookup ns q := by
  have h : ¬ p = q := fun h => hq h.symm
  simp [nsSet, nsLookup, h]
  exact nsLookup_filter_ne ns p q hq

/-- After `nsDel ns p`, lookups at `q ≠ p` are unchanged. -/
lemma nsLookup_del_other (ns : Namespace) (p q : Path) (hq : q ≠ p) :
    nsLookup (nsDel ns p) q = nsLookup ns q :=
  nsLookup_filter_ne ns p q hq

/-! ## Concrete fixtures used by the witnesses -/

/-- A path of user `u`. -/
def up (l : List String) : Path := ⟨"u", l⟩

/-- The namespace of the spec's directory-copy test: `/a` containing
file `/a/f` and subdirectory `/a/b` containing file `/a/b/g`, plus a
destination directory `/dst`. -/
def nsDemo : Namespace :=
  [(up [], .dir), (up ["a"], .dir), (up ["a", "f"], .file 1),
   (up ["a", "b"], .dir), (up ["a", "b", "g"], .file 2),
   (up ["dst"], .dir)]

/-- State over `nsDemo` with no injected failures. -/
def stDemo : St := { ns := nsDemo, failDelete := [], events := [] }

/-- State over `nsDemo` where deleting `/a/b/g` is injected to fail. -/
def stFailG : St :=
  { ns := nsDemo, failDelete := [up ["a", "b", "g"]], events := [] }

/-- A namespace whose directory `/a` directly contains a link `/a/l`
pointing at `/x`, plus a destination directory `/dst`. -/
def stLinkDemo : St :=
  { ns := [(up [], .dir), (up ["a"], .dir),
           (up ["a", "l"], .link (up ["x"])), (up ["dst"], .dir)],
    failDelete := [], events := [] }

/-- A namespace holding only the user root. -/
def stRootOnly : St := { ns := [(up [], .dir)], failDelete := [], events := [] }

/-- A namespace where `/f` is a file (a non-directory destination). -/
def stNotDir : St :=
  { ns := [(up [], .dir), (up ["f"], .file 3)], failDelete := [], events := [] }

/-! ## Claim theorems (error-handling guards) -/

/-- C8: before any source is processed, `copy` requires the destination
to resolve — an absent destination fails with NotFound — and to be a
directory — anything else fails with NotDirectory; in both cases the
state (namespace and event trace) is returned unchanged, so no source is
copied. -/
theorem copy_destination_precondition (fuel : Nat) (st : St) (dst : Path)
    (srcs : List Path) :
    (nsLookup st.ns dst = none →
      copy fuel st dst srcs = (some (.notFound dst), st)) ∧
    (∀ q n, resolve st.ns st.ns.length dst = .ok (q, n) → n.isDir = false →
      copy fuel st dst srcs = (some (.notDir dst), st)) := by
  constructor
  · intro h
    simp [copy, resolve, h]
  · intro q n hres hnd
    simp [copy, hres, hnd]

/-- C8 witness: an absent destination and a file destination, both over
concrete namespaces. -/
theorem copy_destination_precondition_witness :
    copy 1 stRootOnly (up ["d"]) [up ["a"]] =
      (some (.notFound (up ["d"])), stRootOnly) ∧
    copy 1 stNotDir (up ["f"]) [up ["a"]] =
      (some (.notDir (up ["f"])), stNotDir) := by
  constructor
  · exact (copy_destination_precondition 1 stRootOnly (up ["d"]) [up ["a"]]).1
      (by decide)
  · exact (copy_destination_precondition 1 stNotDir (up ["f"]) [up ["a"]]).2
      (up ["f"]) (.file 3) rfl (by decide)

/-- C9: deleting a path that does not exist fails with NotFound from the
initial Lookup, and the state is returned unchanged (no namespace
mutation, no event). -/
theorem delete_absent_notFound (fuel : Nat) (st : St) (name : Path)
    (h : nsLookup st.ns name = none) :
    rm fuel st name = (some (.notFound name), st) := by
  simp [rm, h]

/-- C9 witness: deleting the absent path `/z`. -/
theorem delete_absent_notFound_witness :
    rm 3 stDemo (up ["z"]) = (some (.notFound (up ["z"])), stDemo) :=
  delete_absent_notFound 3 stDemo (up ["z"]) (by decide)

/-- C10: `copy` with an empty source list performs no mutation.  The
destination precondition is still enforced: with a directory destination
the call succeeds and returns the state unchanged; with an absent
destination it fails with the lookup's NotFound; with a non-directory
destination it fails with NotDirectory — unchanged state in all three
cases. -/
theorem copy_empty_sources (fuel : Nat) (st : St) (dst : Path) :
    (∀ q n, resolve st.ns st.ns.length dst = .ok (q, n) → n.isDir = true →
      copy fuel st dst [] = (none, st)) ∧
    (nsLookup st.ns dst = none →
      copy fuel st dst [] = (some (.notFound dst), st)) ∧
    (∀ q n, resolve st.ns st.ns.length dst = .ok (q, n) → n.isDir = false →
      copy fuel st dst [] = (some (.notDir dst), st)) := by
  refine ⟨?_, ?_, ?_⟩
  · intro q n hres hd
    simp [copy, hres, hd, copySrcs]
  · intro h
    simp [copy, resolve, h]
  · intro q n hres hd
    simp [copy, hres, hd]

/-- C10 witness: the three destination cases at concrete inputs. -/
theorem copy_empty_sources_witness :
    copy 2 stDemo (up ["dst"]) [] = (none, stDemo) ∧
    copy 2 stRootOnly (up ["d"]) [] =
      (some (.notFound (up ["d"])), stRootOnly) ∧
    copy 2 stNotDir (up ["f"]) [] = (some (.notDir (up ["f"])), stNotDir) := by
  refine ⟨?_, ?_, ?_⟩
  · exact (copy_empty_sources 2 stDemo (up ["dst"])).1 (up ["dst"]) .dir
      rfl (by decide)
  · exact (copy_empty_sources 2 stRootOnly (up ["d"])).2.1 (by decide)
  · exact (copy_empty_sources 2 stNotDir (up ["f"])).2.2 (up ["f"]) (.file 3)
      rfl (by decide)

/-- C3: a destination that is the source itself or one of its
descendants (`dstDir.HasPrefix(srcPath)`) makes `copyEntry` fail with an
InvalidArgument-class error and leave the state untouched; when the
destination is not under the source the rejection does not fire and the
call proceeds to the kind dispatch. -/
theorem copy_self_descendant_rejection (fuel : Nat) (st : St)
    (dstDir s : Path) (n : Node) :
    (dstDir.hasPfx s = true →
      (copyEntry (fuel + 1) st dstDir s n).2 = st ∧
      ∃ e, (copyEntry (fuel + 1) st dstDir s n).1 = some e ∧
        e.isInvalidArgument = true) ∧
    (s.nElem ≠ 0 → dstDir.hasPfx s = false →
      copyEntry (fuel + 1) st dstDir s n =
        copyDispatch (fun s2 d p m => copyEntry fuel s2 d p m)
          st dstDir s n) := by
  constructor
  · intro h
    by_cases h0 : s.nElem = 0
    · have he : copyEntry (fuel + 1) st dstDir s n =
          (some (.cannotCopyRoot s), st) := by simp [copyEntry, h0]
      rw [he]
      exact ⟨rfl, _, rfl, rfl⟩
    · have he : copyEntry (fuel + 1) st dstDir s n =
          (some (.cannotCopyIntoSubdir s), st) := by simp [copyEntry, h0, h]
      rw [he]
      exact ⟨rfl, _, rfl, rfl⟩
  · intro h0 h1
    simp [copyEntry, h0, h1]

/-- C3 witness: copying `/a` into its subdirectory `/a/b` is rejected
with an InvalidArgument-class error; copying `/a` into the sibling
`/dst` passes the guard and proceeds to the dispatch. -/
theorem copy_self_descendant_rejection_witness :
    ((copyEntry 3 stDemo (up ["a", "b"]) (up ["a"]) .dir).2 = stDemo ∧
      ∃ e, (copyEntry 3 stDemo (up ["a", "b"]) (up ["a"]) .dir).1 = some e ∧
        e.isInvalidArgument = true) ∧
    copyEntry 3 stDemo (up ["dst"]) (up ["a"]) .dir =
      copyDispatch (fun s2 d p m => copyEntry 2 s2 d p m)
        stDemo (up ["dst"]) (up ["a"]) .dir := by
  constructor
  · exact (copy_self_descendant_rejection 2 stDemo (up ["a", "b"]) (up ["a"])
      .dir).1 (by decide)
  · exact (copy_self_descendant_rejection 2 stDemo (up ["dst"]) (up ["a"])
      .dir).2 (by decide) (by decide)

/-- C4 counterexample: the claim quantifies over every destination, but
when the destination does not resolve, `copy` fails with the
destination's NotFound error before the root check is ever reached —
not with an InvalidArgument error — even though the source resolves to
a root. -/
theorem copy_root_any_destination_cex :
    nsLookup stRootOnly.ns (up []) = some .dir ∧
    (up []).nElem = 0 ∧
    copy 1 stRootOnly (up ["d"]) [up []] =
      (some (.notFound (up ["d"])), stRootOnly) ∧
    Err.isInvalidArgument (.notFound (up ["d"])) = false := by
  refine ⟨by decide, rfl, by decide, rfl⟩

/-- C4 amended: when the destination resolves to a directory, a `copy`
whose first source resolves to a root (zero path elements) fails with
the InvalidArgument-class cannot-copy-root error, for any such
destination, and mutates nothing. -/
theorem copy_root_rejected (fuel : Nat) (st : St) (dst src q : Path)
    (n n0 : Node) (rest : List Path)
    (hres : resolve st.ns st.ns.length dst = .ok (q, n))
    (hdir : n.isDir = true)
    (hsrc : nsLookup st.ns src = some n0) (hroot : src.nElem = 0) :
    copy (fuel + 1) st dst (src :: rest) =
      (some (.cannotCopyRoot src), st) ∧
    Err.isInvalidArgument (.cannotCopyRoot src) = true := by
  constructor
  · simp [copy, hres, hdir, copySrcs, hsrc, copyEntry, hroot]
  · rfl

/-- C4 amended witness: copying the root into `/dst`. -/
theorem copy_root_rejected_witness :
    copy 2 stDemo (up ["dst"]) [up []] =
      (some (.cannotCopyRoot (up [])), stDemo) ∧
    Err.isInvalidArgument (.cannotCopyRoot (up [])) = true :=
  copy_root_rejected 1 stDemo (up ["dst"]) (up []) (up ["dst"]) .dir .dir []
    rfl (by decide) (by decide) (by decide)

/-- C6: for a link source (and a destination passing the two guards),
`copyEntry` creates exactly one entry: a same-named link in the
destination directory with the same target as the source link.  The
link target is not resolved and nothing else in the namespace changes,
so the target's content is not copied. -/
theorem copy_link_duplicated (fuel : Nat) (st : St) (dstDir s t : Path)
    (h0 : s.nElem ≠ 0) (h1 : dstDir.hasPfx s = false) :
    copyEntry (fuel + 1) st dstDir s (.link t) =
      (none, { st with ns := nsSet st.ns (dstDir.join s.lastE) (.link t),
                       events := st.events ++
                         [.putlink t (dstDir.join s.lastE)] }) ∧
    nsLookup (nsSet st.ns (dstDir.join s.lastE) (.link t))
      (dstDir.join s.lastE) = some (.link t) ∧
    (∀ r, r ≠ dstDir.join s.lastE →
      nsLookup (nsSet st.ns (dstDir.join s.lastE) (.link t)) r =
        nsLookup st.ns r) := by
  refine ⟨by simp [copyEntry, h0, h1, copyDispatch, putLinkOp],
    nsLookup_set_self _ _ _, fun r hr => nsLookup_set_other _ _ _ _ hr⟩

/-- C6 witness: copying the link `/a/l → /x` into `/dst` creates
`/dst/l` as a link to `/x` and leaves `/x`-content uncopied (the only
change is the one link binding). -/
theorem copy_link_duplicated_witness :
    copyEntry 2 stLinkDemo (up ["dst"]) (up ["a", "l"])
        (.link (up ["x"])) =
      (none, { stLinkDemo with
                 ns := nsSet stLinkDemo.ns (up ["dst", "l"])
                   (.link (up ["x"])),
                 events := [.putlink (up ["x"]) (up ["dst", "l"])] }) ∧
    nsLookup (nsSet stLinkDemo.ns (up ["dst", "l"]) (.link (up ["x"])))
      (up ["dst", "l"]) = some (.link (up ["x"])) := by
  have h := copy_link_duplicated 1 stLinkDemo (up ["dst"]) (up ["a", "l"])
    (up ["x"]) (by decide) (by decide)
  exact ⟨h.1, h.2.1⟩

/-- C7 counterexample: during Delete the ErrFollowLink sentinel from
Glob is fatal, not tolerated: deleting directory `/a`, which directly
contains the link `/a/l → /x`, aborts with the ErrFollowLink error
itself, deleting nothing (the state, including the event trace, is
returned unchanged) — the traversal does not continue with the entries
obtained. -/
theorem delete_followLink_aborts_cex :
    (globOp stLinkDemo.ns (up ["a"])).2 = some .followLink ∧
    rm 5 stLinkDemo (up ["a"]) = (some .followLink, stLinkDemo) ∧
    stLinkDemo.events = [] := by
  refine ⟨by decide, by decide, rfl⟩

/-- C7 amended: the two traversals treat a Glob ErrFollowLink result
differently.  During Copy the sentinel is non-fatal: `copyEntry` on a
directory proceeds to copy the listed children whether or not the glob
reported ErrFollowLink.  During Delete any Glob error — including
ErrFollowLink — aborts `rmEntry` immediately with that error and an
unchanged state. -/
theorem glob_followLink_handling :
    (∀ (fuel : Nat) (st st1 : St) (dstDir s : Path),
      s.nElem ≠ 0 → dstDir.hasPfx s = false →
      mkDirOp st (dstDir.join s.lastE) = (none, st1) →
      copyEntry (fuel + 1) st dstDir s .dir =
        runList (fun s2 de => copyEntry fuel s2 (dstDir.join s.lastE)
          de.1 de.2) st1 (globChildren st1.ns s)) ∧
    (∀ (fuel : Nat) (st : St) (p : Path) (n : Node)
      (des : List (Path × Node)) (e : Err),
      n.isDir = true → globOp st.ns p = (des, some e) →
      rmEntry (fuel + 1) st p n = (some e, st)) := by
  constructor
  · intro fuel st st1 dstDir s h0 h1 hmk
    have he : copyEntry (fuel + 1) st dstDir s .dir =
        copyDispatch (fun s2 d p m => copyEntry fuel s2 d p m)
          st dstDir s .dir := by simp [copyEntry, h0, h1]
    rw [he]
    by_cases hl :
        (globChildren st1.ns s).any (fun e => e.2.isLink) = true
    · simp [copyDispatch, hmk, globOp, hl]
    · simp [copyDispatch, hmk, globOp, hl]
  · intro fuel st p n des e hd hg
    have h2 : (globOp st.ns p).2 = some e := by rw [hg]
    simp [rmEntry, hd, h2]

/-- C7 amended witness: on the link-in-directory fixture, Copy of `/a`
continues into the children (and duplicates the link), while Delete of
`/a` aborts with ErrFollowLink. -/
theorem glob_followLink_handling_witness :
    copyEntry 4 stLinkDemo (up ["dst"]) (up ["a"]) .dir =
      runList (fun s2 de => copyEntry 3 s2 (up ["dst", "a"]) de.1 de.2)
        (mkDirOp stLinkDemo (up ["dst", "a"])).2
        (globChildren (mkDirOp stLinkDemo (up ["dst", "a"])).2.ns
          (up ["a"])) ∧
    rmEntry 4 stLinkDemo (up ["a"]) .dir = (some .followLink, stLinkDemo) := by
  constructor
  · exact glob_followLink_handling.1 3 stLinkDemo
      (mkDirOp stLinkDemo (up ["dst", "a"])).2 (up ["dst"]) (up ["a"])
      (by decide) (by decide) (by decide)
  · exact glob_followLink_handling.2 3 stLinkDemo (up ["a"]) .dir
      (globOp stLinkDemo.ns (up ["a"])).1 .followLink rfl (by decide)

/-! ## Invariants through the traversal loops -/

/-- A reflexive-transitive relation preserved by every step of the loop
is preserved by `runList` as a whole (error or not). -/
lemma runList_rel (R : St → St → Prop) (href : ∀ s, R s s)
    (htr : ∀ a b c, R a b → R b c → R a c)
    (f : St → Path × Node → Option Err × St) (des : List (Path × Node))
    (hstep : ∀ s de, de ∈ des → R s (f s de).2) :
    ∀ st, R st (runList f st des).2 := by
  induction des with
  | nil => intro st; exact href st
  | cons de rest ih =>
      intro st
      have h1 : R st (f st de).2 := hstep st de (List.mem_cons_self _ _)
      rcases hf : f st de with ⟨oe, st1⟩
      rw [hf] at h1
      cases oe with
      | some e =>
          have he : runList f st (de :: rest) = (some e, st1) := by
            simp [runList, hf]
          rw [he]
          exact h1
      | none =>
          have he : runList f st (de :: rest) = runList f st1 rest := by
            simp [runList, hf]
          rw [he]
          exact htr _ _ _ h1
            (ih (fun s de2 hm => hstep s de2 (List.mem_cons_of_mem _ hm)) st1)

/-- `nsSet` never removes a binding. -/
lemma isSome_set (ns : Namespace) (p : Path) (n : Node) (q : Path)
    (h : (nsLookup ns q).isSome = true) :
    (nsLookup (nsSet ns p n) q).isSome = true := by
  by_cases hq : q = p
  · subst hq; rw [nsLookup_set_self]; rfl
  · rw [nsLookup_set_other _ _ _ _ hq]; exact h

/-- `mkDirOp` never removes a binding. -/
lemma mkDirOp_mono (st : St) (p q : Path)
    (h : (nsLookup st.ns q).isSome = true) :
    (nsLookup (mkDirOp st p).2.ns q).isSome = true := by
  cases hl : nsLookup st.ns p with
  | some n => simp [mkDirOp, hl]; exact h
  | none => simp [mkDirOp, hl]; exact isSome_set _ _ _ _ h

/-- `putDupOp` never removes a binding. -/
lemma putDupOp_mono (st : St) (src dst q : Path)
    (h : (nsLookup st.ns q).isSome = true) :
    (nsLookup (putDupOp st src dst).2.ns q).isSome = true := by
  cases hl : nsLookup st.ns src with
  | none => simp [putDupOp, hl]; exact h
  | some n => simp [putDupOp, hl]; exact isSome_set _ _ _ _ h

/-- `copyEntry` never removes a binding from the namespace: every path
present before a copy (successful or aborted) is still present after
it — the copy direction of "no rollback, no cleanup". -/
lemma copyEntry_mono (fuel : Nat) :
    ∀ (st : St) (dstDir p : Path) (n : Node) (q : Path),
    (nsLookup st.ns q).isSome = true →
    (nsLookup ((copyEntry fuel st dstDir p n).2).ns q).isSome = true := by
  induction fuel with
  | zero => intro st dstDir p n q h; simpa [copyEntry] using h
  | succ fu ih =>
      intro st dstDir p n q h
      by_cases h0 : p.nElem = 0
      · simpa [copyEntry, h0] using h
      by_cases h1 : dstDir.hasPfx p = true
      · simpa [copyEntry, h0, h1] using h
      have he : copyEntry (fu + 1) st dstDir p n =
          copyDispatch (fun s2 d p2 n2 => copyEntry fu s2 d p2 n2)
            st dstDir p n := by
        simp [copyEntry, h0, h1]
      rw [he]
      have hrun : ∀ (st2 : St) (des : List (Path × Node)) (dst2 : Path),
          (nsLookup st2.ns q).isSome = true →
          (nsLookup ((runList
            (fun s2 de => copyEntry fu s2 dst2 de.1 de.2) st2 des).2).ns
              q).isSome = true := by
        intro st2 des dst2 h2
        exact runList_rel
          (fun a b => (nsLookup a.ns q).isSome = true →
            (nsLookup b.ns q).isSome = true)
          (fun s hs => hs) (fun a b c hab hbc hs => hbc (hab hs)) _ des
          (fun s de _ => ih s dst2 de.1 de.2 q) st2 h2
      cases n with
      | dir =>
          rcases hmk : mkDirOp st (dstDir.join p.lastE) with ⟨oe, stA⟩
          have hA : (nsLookup stA.ns q).isSome = true := by
            have := mkDirOp_mono st (dstDir.join p.lastE) q h
            rwa [hmk] at this
          cases oe with
          | some e => simp [copyDispatch, hmk]; exact hA
          | none =>
              by_cases hl :
                  (globChildren stA.ns p).any (fun e => e.2.isLink) = true
              · simp [copyDispatch, hmk, globOp, hl]
                exact hrun stA _ _ hA
              · simp [copyDispatch, hmk, globOp, hl]
                exact hrun stA _ _ hA
      | link t => simp [copyDispatch, putLinkOp]; exact isSome_set _ _ _ _ h
      | file c =>
          have := putDupOp_mono st p (dstDir.join p.lastE) q h
          simpa [copyDispatch] using this

/-- Splitting the source loop of `copy` at a list append: the second
half runs from the state the first half produced, and a first-half
error short-circuits. -/
lemma copySrcs_append (fuel : Nat) (st : St) (dst : Path)
    (l1 l2 : List Path) :
    copySrcs fuel st dst (l1 ++ l2) =
      match copySrcs fuel st dst l1 with
      | (some e, st1) => (some e, st1)
      | (none, st1) => copySrcs fuel st1 dst l2 := by
  induction l1 generalizing st with
  | nil => simp [copySrcs]
  | cons s rest ih =>
      cases hl : nsLookup st.ns s with
      | none => simp [copySrcs, hl]
      | some n =>
          rcases hc : copyEntry fuel st dst s n with ⟨oe, st1⟩
          cases oe with
          | some e => simp [copySrcs, hl, hc]
          | none =>
              simp only [List.cons_append, copySrcs, hl, hc]
              simpa using ih st1

/-- The source loop never removes a binding. -/
lemma copySrcs_mono (fuel : Nat) (dst : Path) :
    ∀ (srcs : List Path) (st : St) (q : Path),
    (nsLookup st.ns q).isSome = true →
    (nsLookup ((copySrcs fuel st dst srcs).2).ns q).isSome = true := by
  intro srcs
  induction srcs with
  | nil => intro st q h; simpa [copySrcs] using h
  | cons s rest ih =>
      intro st q h
      cases hl : nsLookup st.ns s with
      | none => simpa [copySrcs, hl] using h
      | some n =>
          rcases hc : copyEntry fuel st dst s n with ⟨oe, st1⟩
          have h1 : (nsLookup st1.ns q).isSome = true := by
            have := copyEntry_mono fuel st dst s n q h
            rwa [hc] at this
          cases oe with
          | some e => simpa [copySrcs, hl, hc] using h1
          | none =>
              simp only [copySrcs, hl, hc]
              exact ih st1 q h1

/-- C5: the source loop of Copy is sequential in caller order and
returns the first error with the state reached at that point: if the
sources `l1` all copy successfully (reaching `st1`) and the next source
`s` fails from `st1` with error `e` and state `st2`, the whole loop
over `l1 ++ s :: l2` returns exactly `(e, st2)` — the sources after `s`
are never processed, and no rollback occurs.  Moreover nothing is ever
removed from the namespace by the loop, at any recursion depth: every
binding present before it (including the completed copies of `l1` and
any partial subtree of `s`) is still present in the returned state. -/
theorem copy_first_error_no_rollback :
    (∀ (fuel : Nat) (st st1 st2 : St) (dst : Path) (l1 l2 : List Path)
      (s : Path) (e : Err),
      copySrcs fuel st dst l1 = (none, st1) →
      copySrcs fuel st1 dst [s] = (some e, st2) →
      copySrcs fuel st dst (l1 ++ s :: l2) = (some e, st2)) ∧
    (∀ (fuel : Nat) (st : St) (dst : Path) (srcs : List Path) (q : Path),
      (nsLookup st.ns q).isSome = true →
      (nsLookup ((copySrcs fuel st dst srcs).2).ns q).isSome = true) := by
  constructor
  · intro fuel st st1 st2 dst l1 l2 s e h1 h2
    have ha : copySrcs fuel st dst (l1 ++ s :: l2) =
        copySrcs fuel st1 dst (s :: l2) := by
      rw [copySrcs_append, h1]
    have hb : copySrcs fuel st1 dst ([s] ++ l2) = (some e, st2) := by
      rw [copySrcs_append, h2]
    rw [ha]
    simpa using hb
  · intro fuel st dst srcs q h
    exact copySrcs_mono fuel dst srcs st q h

/-- C5 witness: copying `[/a/f, /a/b, /nope]` into `/dst` fails at the
third (absent) source with NotFound; the loop result equals the state
after the first two copies, and a binding created by them
(`/dst/b/g`) is still present in the final state. -/
theorem copy_first_error_no_rollback_witness :
    copySrcs 5 stDemo (up ["dst"])
        [up ["a", "f"], up ["a", "b"], up ["nope"]] =
      (some (.notFound (up ["nope"])),
        (copySrcs 5 stDemo (up ["dst"]) [up ["a", "f"], up ["a", "b"]]).2) ∧
    (nsLookup ((copySrcs 5
        (copySrcs 5 stDemo (up ["dst"]) [up ["a", "f"], up ["a", "b"]]).2
        (up ["dst"]) [up ["nope"]]).2).ns (up ["dst", "b", "g"])).isSome =
      true := by
  constructor
  · exact copy_first_error_no_rollback.1 5 stDemo
      (copySrcs 5 stDemo (up ["dst"]) [up ["a", "f"], up ["a", "b"]]).2
      (copySrcs 5 stDemo (up ["dst"]) [up ["a", "f"], up ["a", "b"]]).2
      (up ["dst"]) [up ["a", "f"], up ["a", "b"]] [] (up ["nope"])
      (.notFound (up ["nope"])) (by decide) (by decide)
  · exact copy_first_error_no_rollback.2 5
      (copySrcs 5 stDemo (up ["dst"]) [up ["a", "f"], up ["a", "b"]]).2
      (up ["dst"]) [up ["nope"]] (up ["dst", "b", "g"]) (by decide)

/-! ## Path prefix facts -/

/-- `hasPfx` unfolded to a propositional prefix statement. -/
lemma hasPfx_iff (p q : Path) :
    p.hasPfx q = true ↔ p.user = q.user ∧ q.elems <+: p.elems := by
  simp [Path.hasPfx, Bool.and_eq_true, List.isPrefixOf_iff_prefix]

/-- Every path is a prefix of itself. -/
lemma hasPfx_refl (p : Path) : p.hasPfx p = true := by
  rw [hasPfx_iff]; exact ⟨rfl, List.prefix_refl _⟩

/-- Prefix transitivity: `c ≤ b ≤ a` gives `c ≤ a`. -/
lemma hasPfx_trans {a b c : Path} (h1 : a.hasPfx b = true)
    (h2 : b.hasPfx c = true) : a.hasPfx c = true := by
  rw [hasPfx_iff] at h1 h2 ⊢
  exact ⟨h1.1.trans h2.1, h2.2.trans h1.2⟩

/-- A prefix is no longer than the path. -/
lemma hasPfx_nElem {a b : Path} (h : a.hasPfx b = true) :
    b.nElem ≤ a.nElem := by
  rw [hasPfx_iff] at h
  exact h.2.length_le

/-- A prefix of equal (or larger) length is the path itself. -/
lemma hasPfx_eq_of_nElem {a b : Path} (h : a.hasPfx b = true)
    (hl : a.nElem ≤ b.nElem) : a = b := by
  rw [hasPfx_iff] at h
  rcases a with ⟨ua, la⟩
  rcases b with ⟨ub, lb⟩
  have hlen : lb.length = la.length :=
    Nat.le_antisymm h.2.length_le hl
  have hu : ua = ub := h.1
  have : lb = la := h.2.eq_of_length hlen
  simp [hu, this]

/-- Joining an element yields an extension of the path. -/
lemma join_hasPfx (p : Path) (e : String) : (p.join e).hasPfx p = true := by
  rw [hasPfx_iff]
  exact ⟨rfl, ⟨[e], rfl⟩⟩

/-- A path is never an extension of its own join. -/
lemma hasPfx_join_self (p : Path) (e : String) :
    p.hasPfx (p.join e) = false := by
  cases hb : p.hasPfx (p.join e) with
  | false => rfl
  | true =>
      have := hasPfx_nElem hb
      simp [Path.join, Path.nElem] at this

/-- Two prefixes of the same path are comparable. -/
lemma hasPfx_comparable {a b q : Path} (h1 : q.hasPfx a = true)
    (h2 : q.hasPfx b = true) : a.hasPfx b = true ∨ b.hasPfx a = true := by
  rw [hasPfx_iff] at h1 h2
  rw [hasPfx_iff, hasPfx_iff]
  rcases List.prefix_or_prefix_of_prefix h1.2 h2.2 with h | h
  · exact Or.inr ⟨h2.1.symm.trans h1.1, h⟩
  · exact Or.inl ⟨h1.1.symm.trans h2.1, h⟩

/-- If neither of `dst`, `s` extends the other, no path extends both. -/
lemma disjoint_of_not_pfx {dst s : Path} (h1 : dst.hasPfx s = false)
    (h2 : s.hasPfx dst = false) :
    ∀ r : Path, r.hasPfx dst = true → r.hasPfx s = true → False := by
  intro r ha hb
  rcases hasPfx_comparable ha hb with h | h
  · rw [h1] at h; cases h
  · rw [h2] at h; cases h

/-- `isChildOf` unfolded. -/
lemma isChildOf_iff (c p : Path) :
    isChildOf c p = true ↔
      c.user = p.user ∧ c.elems.length = p.elems.length + 1 ∧
        p.elems <+: c.elems := by
  simp [isChildOf, Bool.and_eq_true, List.isPrefixOf_iff_prefix, and_assoc]

/-- A direct child extends its parent. -/
lemma isChildOf_hasPfx {c p : Path} (h : isChildOf c p = true) :
    c.hasPfx p = true := by
  rw [isChildOf_iff] at h
  rw [hasPfx_iff]
  exact ⟨h.1, h.2.2⟩

/-- A direct child is exactly one element longer. -/
lemma isChildOf_nElem {c p : Path} (h : isChildOf c p = true) :
    c.nElem = p.nElem + 1 := by
  rw [isChildOf_iff] at h
  exact h.2.1

/-- Comparable direct children of the same parent are equal. -/
lemma isChildOf_eq_of_comparable {c1 c2 p : Path}
    (h1 : isChildOf c1 p = true) (h2 : isChildOf c2 p = true)
    (h : c1.hasPfx c2 = true ∨ c2.hasPfx c1 = true) : c1 = c2 := by
  have l1 := isChildOf_nElem h1
  have l2 := isChildOf_nElem h2
  rcases h with h | h
  · exact hasPfx_eq_of_nElem h (by omega)
  · exact (hasPfx_eq_of_nElem h (by omega)).symm

/-- A glob result entry is an entry of the namespace and a direct child
of the globbed directory. -/
lemma globChildren_mem {ns : Namespace} {p : Path} {de : Path × Node}
    (h : de ∈ globChildren ns p) : de ∈ ns ∧ isChildOf de.1 p = true := by
  unfold globChildren at h
  rcases List.mem_filter.1 h with ⟨h1, h2⟩
  exact ⟨h1, h2⟩

/-! ## Key uniqueness (Nodup) preservation -/

/-- Glob results inherit key uniqueness from the namespace. -/
lemma globChildren_nodup {ns : Namespace} {p : Path}
    (h : (ns.map Prod.fst).Nodup) :
    ((globChildren ns p).map Prod.fst).Nodup :=
  h.sublist ((List.filter_sublist ns).map Prod.fst)

/-- `nsDel` preserves key uniqueness. -/
lemma nsDel_nodup (ns : Namespace) (p : Path)
    (h : (ns.map Prod.fst).Nodup) : ((nsDel ns p).map Prod.fst).Nodup :=
  h.sublist ((List.filter_sublist ns).map Prod.fst)

/-- `nsSet` preserves key uniqueness. -/
lemma nsSet_nodup (ns : Namespace) (p : Path) (n : Node)
    (h : (ns.map Prod.fst).Nodup) :
    ((nsSet ns p n).map Prod.fst).Nodup := by
  rw [nsSet, List.map_cons, List.nodup_cons]
  refine ⟨?_, nsDel_nodup ns p h⟩
  intro hm
  rcases List.mem_map.1 hm with ⟨e, he, hfst⟩
  have := List.of_mem_filter he
  simp [hfst] at this

/-! ## Frame lemmas for Delete -/

/-- `deleteOp` touches only the deleted path. -/
lemma deleteOp_frame (st : St) (p q : Path) (hq : q ≠ p) :
    nsLookup (deleteOp st p).2.ns q = nsLookup st.ns q := by
  by_cases hm : pathMem p st.failDelete = true
  · simp [deleteOp, hm]
  · cases hl : nsLookup st.ns p with
    | none => simp [deleteOp, hm, hl]
    | some n =>
        cases n with
        | dir =>
            by_cases hc : (globChildren st.ns p).isEmpty = true
            · simp [deleteOp, hm, hl, hc]
              exact nsLookup_del_other _ _ _ hq
            · simp [deleteOp, hm, hl, hc]
        | link t =>
            simp [deleteOp, hm, hl]
            exact nsLookup_del_other _ _ _ hq
        | file c =>
            simp [deleteOp, hm, hl]
            exact nsLookup_del_other _ _ _ hq

/-- `rmEntry` touches only paths that extend the removed entry. -/
lemma rmEntry_frame (fuel : Nat) :
    ∀ (st : St) (p : Path) (n : Node) (q : Path),
    q.hasPfx p = false →
    nsLookup ((rmEntry fuel st p n).2).ns q = nsLookup st.ns q := by
  induction fuel with
  | zero => intro st p n q h; simp [rmEntry]
  | succ fu ih =>
      intro st p n q h
      have hqp : q ≠ p := by
        intro he
        rw [he, hasPfx_refl p] at h
        cases h
      by_cases hd : n.isDir = true
      · by_cases hl : (globChildren st.ns p).any (fun e => e.2.isLink) = true
        · simp [rmEntry, hd, globOp, hl]
        · have hstep : ∀ (s2 : St) (de : Path × Node),
              de ∈ globChildren st.ns p →
              nsLookup ((rmEntry fu s2 de.1 de.2).2).ns q =
                nsLookup s2.ns q := by
            intro s2 de hm
            apply ih
            cases hb : q.hasPfx de.1 with
            | false => rfl
            | true =>
                have hc := isChildOf_hasPfx (globChildren_mem hm).2
                have ht := hasPfx_trans hb hc
                rw [ht] at h
                cases h
          have hrl := runList_rel
            (fun a b => nsLookup b.ns q = nsLookup a.ns q) (fun s => rfl)
            (fun a b c h1 h2 => h2.trans h1) _ (globChildren st.ns p)
            (fun s de hm => hstep s de hm) st
          rcases hr : runList (fun s2 de => rmEntry fu s2 de.1 de.2) st
              (globChildren st.ns p) with ⟨oe, stm⟩
          rw [hr] at hrl
          cases oe with
          | some e =>
              simp [rmEntry, hd, globOp, hl, hr]
              exact hrl
          | none =>
              simp [rmEntry, hd, globOp, hl, hr]
              rw [deleteOp_frame stm p q hqp]
              exact hrl
      · simp [rmEntry, hd]
        exact deleteOp_frame st p q hqp

/-! ## Delete trace lemmas -/

/-- A successful `deleteOp` unbinds the path and appends exactly one
deletion event. -/
lemma deleteOp_none {st : St} {p : Path} {st1 : St}
    (h : deleteOp st p = (none, st1)) :
    st1.ns = nsDel st.ns p ∧ st1.events = st.events ++ [.del p] := by
  by_cases hm : pathMem p st.failDelete = true
  · simp [deleteOp, hm] at h
  · cases hl : nsLookup st.ns p with
    | none => simp [deleteOp, hm, hl] at h
    | some n =>
        cases n with
        | dir =>
            by_cases hc : (globChildren st.ns p).isEmpty = true
            · simp [deleteOp, hm, hl, hc] at h
              rw [← h]
              exact ⟨rfl, rfl⟩
            · simp [deleteOp, hm, hl, hc] at h
        | link t =>
            simp [deleteOp, hm, hl] at h
            rw [← h]
            exact ⟨rfl, rfl⟩
        | file c =>
            simp [deleteOp, hm, hl] at h
            rw [← h]
            exact ⟨rfl, rfl⟩

/-- A `deleteOp` that reports the injected delete failure names the
path itself and leaves the state untouched. -/
lemma deleteOp_deleteFailed {st : St} {p r : Path} {st1 : St}
    (h : deleteOp st p = (some (.deleteFailed r), st1)) :
    r = p ∧ st1 = st := by
  by_cases hm : pathMem p st.failDelete = true
  · simp [deleteOp, hm] at h
    exact ⟨h.1.symm, h.2.symm⟩
  · cases hl : nsLookup st.ns p with
    | none => simp [deleteOp, hm, hl] at h
    | some n =>
        cases n with
        | dir =>
            by_cases hc : (globChildren st.ns p).isEmpty = true
            · simp [deleteOp, hm, hl, hc] at h
            · simp [deleteOp, hm, hl, hc] at h
        | link t => simp [deleteOp, hm, hl] at h
        | file c => simp [deleteOp, hm, hl] at h

/-- An erroring `runList` attributes its error to some element call. -/
lemma runList_some (f : St → Path × Node → Option Err × St)
    (des : List (Path × Node)) :
    ∀ (st st1 : St) (e : Err), runList f st des = (some e, st1) →
      ∃ de ∈ des, ∃ s2, f s2 de = (some e, st1) := by
  induction des with
  | nil => intro st st1 e h; simp [runList] at h
  | cons de rest ih =>
      intro st st1 e h
      rcases hf : f st de with ⟨oe, stm⟩
      cases oe with
      | some e2 =>
          have he : runList f st (de :: rest) = (some e2, stm) := by
            simp [runList, hf]
          rw [he] at h
          rcases Prod.mk.injEq _ _ _ _ ▸ h with ⟨h1, h2⟩
          injection h1 with h1
          exact ⟨de, List.mem_cons_self _ _, st,
            by rw [hf, h1, h2]⟩
      | none =>
          have he : runList f st (de :: rest) = runList f stm rest := by
            simp [runList, hf]
          rw [he] at h
          rcases ih stm st1 e h with ⟨de2, hm, s2, hf2⟩
          exact ⟨de2, List.mem_cons_of_mem _ hm, s2, hf2⟩

/-- A successful `runList` whose per-element success traces all append
a deletion of the element (plus events satisfying `Q`) appends, in
total, a deletion of every element, all satisfying `Q`. -/
lemma runList_success_events (f : St → Path × Node → Option Err × St)
    (des : List (Path × Node)) (Q : Ev → Prop)
    (hstep : ∀ (s : St) (de : Path × Node) (st2 : St), de ∈ des →
      f s de = (none, st2) →
      ∃ l, st2.events = s.events ++ l ∧ Ev.del de.1 ∈ l ∧ ∀ ev ∈ l, Q ev) :
    ∀ (st st1 : St), runList f st des = (none, st1) →
      ∃ l, st1.events = st.events ++ l ∧
        (∀ de ∈ des, Ev.del de.1 ∈ l) ∧ ∀ ev ∈ l, Q ev := by
  induction des with
  | nil =>
      intro st st1 h
      simp [runList] at h
      exact ⟨[], by simp [← h], by simp, by simp⟩
  | cons de rest ih =>
      intro st st1 h
      rcases hf : f st de with ⟨oe, stm⟩
      cases oe with
      | some e =>
          have he : runList f st (de :: rest) = (some e, stm) := by
            simp [runList, hf]
          rw [he] at h
          simp at h
      | none =>
          have he : runList f st (de :: rest) = runList f stm rest := by
            simp [runList, hf]
          rw [he] at h
          rcases hstep st de stm (List.mem_cons_self _ _) hf with
            ⟨l1, he1, hd1, hq1⟩
          rcases ih (fun s d s2 hm hf2 =>
              hstep s d s2 (List.mem_cons_of_mem _ hm) hf2) stm st1 h with
            ⟨l2, he2, hd2, hq2⟩
          refine ⟨l1 ++ l2, ?_, ?_, ?_⟩
          · rw [he2, he1, List.append_assoc]
          · intro d hm
            rcases List.mem_cons.1 hm with hm | hm
            · exact hm ▸ List.mem_append_left _ hd1
            · exact List.mem_append_right _ (hd2 d hm)
          · intro ev hm
            rcases List.mem_append.1 hm with hm | hm
            · exact hq1 ev hm
            · exact hq2 ev hm

/-- A delete failure reported by `rmEntry` names a path inside the
subtree being removed. -/
lemma rmEntry_fail_under (fuel : Nat) :
    ∀ (st : St) (p : Path) (n : Node) (r : Path) (st1 : St),
    rmEntry fuel st p n = (some (.deleteFailed r), st1) →
    r.hasPfx p = true := by
  induction fuel with
  | zero => intro st p n r st1 h; simp [rmEntry] at h
  | succ fu ih =>
      intro st p n r st1 h
      by_cases hd : n.isDir = true
      · by_cases hl : (globChildren st.ns p).any (fun e => e.2.isLink) = true
        · simp [rmEntry, hd, globOp, hl] at h
        · rcases hr : runList (fun s2 de => rmEntry fu s2 de.1 de.2) st
              (globChildren st.ns p) with ⟨oe, stm⟩
          cases oe with
          | some e =>
              have he : rmEntry (fu + 1) st p n = (some e, stm) := by
                simp [rmEntry, hd, globOp, hl, hr]
              rw [he] at h
              rcases Prod.mk.injEq _ _ _ _ ▸ h with ⟨h1, h2⟩
              injection h1 with h1
              rw [h1, h2] at hr
              rcases runList_some _ _ st st1 _ hr with ⟨de, hm, s2, hf2⟩
              exact hasPfx_trans (ih s2 de.1 de.2 r st1 hf2)
                (isChildOf_hasPfx (globChildren_mem hm).2)
          | none =>
              have he : rmEntry (fu + 1) st p n = deleteOp stm p := by
                simp [rmEntry, hd, globOp, hl, hr]
              rw [he] at h
              rw [(deleteOp_deleteFailed h).1]
              exact hasPfx_refl p
      · have he : rmEntry (fu + 1) st p n = deleteOp st p := by
          simp [rmEntry, hd]
        rw [he] at h
        rw [(deleteOp_deleteFailed h).1]
        exact hasPfx_refl p

/-- `rmEntry` preserves key uniqueness of the namespace. -/
lemma rmEntry_nodup (fuel : Nat) :
    ∀ (st : St) (p : Path) (n : Node),
    (st.ns.map Prod.fst).Nodup →
    (((rmEntry fuel st p n).2).ns.map Prod.fst).Nodup := by
  induction fuel with
  | zero => intro st p n h; simpa [rmEntry] using h
  | succ fu ih =>
      intro st p n h
      have hdel : ∀ (s : St), (s.ns.map Prod.fst).Nodup →
          (((deleteOp s p).2).ns.map Prod.fst).Nodup := by
        intro s hs
        by_cases hm : pathMem p s.failDelete = true
        · simpa [deleteOp, hm] using hs
        · cases hl : nsLookup s.ns p with
          | none => simpa [deleteOp, hm, hl] using hs
          | some n2 =>
              cases n2 with
              | dir =>
                  by_cases hc : (globChildren s.ns p).isEmpty = true
                  · simp [deleteOp, hm, hl, hc]
                    exact nsDel_nodup _ _ hs
                  · simpa [deleteOp, hm, hl, hc] using hs
              | link t =>
                  simp [deleteOp, hm, hl]
                  exact nsDel_nodup _ _ hs
              | file c =>
                  simp [deleteOp, hm, hl]
                  exact nsDel_nodup _ _ hs
      by_cases hd : n.isDir = true
      · by_cases hl : (globChildren st.ns p).any (fun e => e.2.isLink) = true
        · simpa [rmEntry, hd, globOp, hl] using h
        · have hrl := runList_rel
            (fun a b => (a.ns.map Prod.fst).Nodup →
              (b.ns.map Prod.fst).Nodup)
            (fun s hs => hs) (fun a b c h1 h2 hs => h2 (h1 hs)) _
            (globChildren st.ns p) (fun s de _ => ih s de.1 de.2) st
          rcases hr : runList (fun s2 de => rmEntry fu s2 de.1 de.2) st
              (globChildren st.ns p) with ⟨oe, stm⟩
          rw [hr] at hrl
          cases oe with
          | some e =>
              simp [rmEntry, hd, globOp, hl, hr]
              exact hrl h
          | none =>
              simp [rmEntry, hd, globOp, hl, hr]
              exact hdel stm (hrl h)
      · simp [rmEntry, hd]
        exact hdel st h

/-- Success trace of `rmEntry`: the appended events are deletions of
strict descendants followed by the deletion of the entry itself —
post-order — and for a directory every direct child's deletion is among
them. -/
lemma rmEntry_success_trace (fuel : Nat) :
    ∀ (st : St) (p : Path) (n : Node) (st1 : St),
    rmEntry fuel st p n = (none, st1) →
    ∃ mid, st1.events = st.events ++ mid ++ [.del p] ∧
      (∀ ev ∈ mid, ∃ r, ev = .del r ∧ r.hasPfx p = true ∧
        p.nElem < r.nElem) ∧
      (n.isDir = true →
        ∀ de ∈ globChildren st.ns p, Ev.del de.1 ∈ mid) := by
  induction fuel with
  | zero => intro st p n st1 h; simp [rmEntry] at h
  | succ fu ih =>
      intro st p n st1 h
      by_cases hd : n.isDir = true
      · by_cases hl : (globChildren st.ns p).any (fun e => e.2.isLink) = true
        · simp [rmEntry, hd, globOp, hl] at h
        · rcases hr : runList (fun s2 de => rmEntry fu s2 de.1 de.2) st
              (globChildren st.ns p) with ⟨oe, stm⟩
          cases oe with
          | some e =>
              have he : rmEntry (fu + 1) st p n = (some e, stm) := by
                simp [rmEntry, hd, globOp, hl, hr]
              rw [he] at h
              simp at h
          | none =>
              have he : rmEntry (fu + 1) st p n = deleteOp stm p := by
                simp [rmEntry, hd, globOp, hl, hr]
              rw [he] at h
              obtain ⟨hns, hev⟩ := deleteOp_none h
              have hQ := runList_success_events _ (globChildren st.ns p)
                (fun ev => ∃ r, ev = .del r ∧ r.hasPfx p = true ∧
                  p.nElem < r.nElem)
                (fun s de st2 hm hf2 => by
                  rcases ih s de.1 de.2 st2 hf2 with ⟨midc, hevc, hmidc, _⟩
                  have hcp := (globChildren_mem hm).2
                  refine ⟨midc ++ [.del de.1],
                    by rw [hevc, List.append_assoc],
                    List.mem_append_right _ (by simp), ?_⟩
                  intro ev hm2
                  rcases List.mem_append.1 hm2 with hm2 | hm2
                  · rcases hmidc ev hm2 with ⟨r, her, hrp, hlen⟩
                    refine ⟨r, her,
                      hasPfx_trans hrp (isChildOf_hasPfx hcp), ?_⟩
                    have := isChildOf_nElem hcp
                    omega
                  · refine ⟨de.1, List.eq_of_mem_singleton hm2,
                      isChildOf_hasPfx hcp, ?_⟩
                    have := isChildOf_nElem hcp
                    omega) st stm hr
              rcases hQ with ⟨l, hel, hdl, hql⟩
              refine ⟨l, ?_, hql, fun _ de hm => hdl de hm⟩
              rw [hev, hel, List.append_assoc]
      · have he : rmEntry (fu + 1) st p n = deleteOp st p := by
          simp [rmEntry, hd]
        rw [he] at h
        obtain ⟨hns, hev⟩ := deleteOp_none h
        exact ⟨[], by simpa using hev, by simp,
          fun hdir => absurd hdir hd⟩

/-- If the children loop of `rmEntry` reports a delete failure at `r`,
every strict ancestor of `r` keeps its binding (the children are
pairwise non-overlapping subtrees, so siblings of the failing branch
never touch an ancestor of `r`).  `hrec` is the recursion hypothesis
for the per-child calls. -/
lemma runList_rm_fail_anc (fu : Nat) (p : Path)
    (hrec : ∀ (st : St) (c : Path) (nc : Node) (r : Path) (st1 : St),
      (st.ns.map Prod.fst).Nodup →
      rmEntry fu st c nc = (some (.deleteFailed r), st1) →
      ∀ q, r.hasPfx q = true → q ≠ r →
        nsLookup st1.ns q = nsLookup st.ns q) :
    ∀ (des : List (Path × Node)) (st st1 : St) (r : Path),
      (st.ns.map Prod.fst).Nodup → (des.map Prod.fst).Nodup →
      (∀ de ∈ des, isChildOf de.1 p = true) →
      runList (fun s2 de => rmEntry fu s2 de.1 de.2) st des =
        (some (.deleteFailed r), st1) →
      ∀ q, r.hasPfx q = true → q ≠ r →
        nsLookup st1.ns q = nsLookup st.ns q := by
  intro des
  induction des with
  | nil => intro st st1 r _ _ _ h; simp [runList] at h
  | cons de rest ih =>
      intro st st1 r hnd hkeys hch hrun q hq hqr
      simp only [List.map_cons, List.nodup_cons] at hkeys
      rcases hf : rmEntry fu st de.1 de.2 with ⟨oe, stm⟩
      cases oe with
      | some e =>
          have he : runList (fun s2 de => rmEntry fu s2 de.1 de.2) st
              (de :: rest) = (some e, stm) := by
            simp [runList, hf]
          rw [he] at hrun
          rcases Prod.mk.injEq _ _ _ _ ▸ hrun with ⟨h1, h2⟩
          injection h1 with h1
          rw [h1, h2] at hf
          exact hrec st de.1 de.2 r st1 hnd hf q hq hqr
      | none =>
          have he : runList (fun s2 de => rmEntry fu s2 de.1 de.2) st
              (de :: rest) =
              runList (fun s2 de => rmEntry fu s2 de.1 de.2) stm rest := by
            simp [runList, hf]
          rw [he] at hrun
          obtain ⟨de2, hde2, s2, hf2⟩ :=
            runList_some _ rest stm st1 (.deleteFailed r) hrun
          have hr2 : r.hasPfx de2.1 = true :=
            rmEntry_fail_under fu s2 de2.1 de2.2 r st1 hf2
          have hqde : q.hasPfx de.1 = false := by
            cases hb : q.hasPfx de.1 with
            | false => rfl
            | true =>
                have hrde : r.hasPfx de.1 = true := hasPfx_trans hq hb
                have heq : de.1 = de2.1 :=
                  isChildOf_eq_of_comparable
                    (hch de (List.mem_cons_self _ _))
                    (hch de2 (List.mem_cons_of_mem _ hde2))
                    (hasPfx_comparable hrde hr2)
                exact absurd (heq ▸ List.mem_map_of_mem Prod.fst hde2)
                  hkeys.1
          have hstm : nsLookup stm.ns q = nsLookup st.ns q := by
            have := rmEntry_frame fu st de.1 de.2 q hqde
            rwa [hf] at this
          have hnd2 : (stm.ns.map Prod.fst).Nodup := by
            have := rmEntry_nodup fu st de.1 de.2 hnd
            rwa [hf] at this
          rw [ih stm st1 r hnd2 hkeys.2
            (fun d hd => hch d (List.mem_cons_of_mem _ hd)) hrun q hq hqr]
          exact hstm

/-- On a delete failure at `r`, every strict ancestor of `r` keeps its
binding: `rmEntry` deletes post-order, so no ancestor of a path whose
deletion failed has been deleted when the error is returned. -/
lemma rmEntry_fail_ancestors (fuel : Nat) :
    ∀ (st : St) (p : Path) (n : Node) (r : Path) (st1 : St),
    (st.ns.map Prod.fst).Nodup →
    rmEntry fuel st p n = (some (.deleteFailed r), st1) →
    ∀ q, r.hasPfx q = true → q ≠ r →
      nsLookup st1.ns q = nsLookup st.ns q := by
  induction fuel with
  | zero => intro st p n r st1 _ h; simp [rmEntry] at h
  | succ fu ih =>
      intro st p n r st1 hnd h q hq hqr
      by_cases hd : n.isDir = true
      · by_cases hl : (globChildren st.ns p).any (fun e => e.2.isLink) = true
        · simp [rmEntry, hd, globOp, hl] at h
        · rcases hr : runList (fun s2 de => rmEntry fu s2 de.1 de.2) st
              (globChildren st.ns p) with ⟨oe, stm⟩
          cases oe with
          | some e =>
              have he : rmEntry (fu + 1) st p n = (some e, stm) := by
                simp [rmEntry, hd, globOp, hl, hr]
              rw [he] at h
              rcases Prod.mk.injEq _ _ _ _ ▸ h with ⟨h1, h2⟩
              injection h1 with h1
              rw [h1, h2] at hr
              exact runList_rm_fail_anc fu p ih (globChildren st.ns p)
                st st1 r hnd (globChildren_nodup hnd)
                (fun de hm => (globChildren_mem hm).2) hr q hq hqr
          | none =>
              have he : rmEntry (fu + 1) st p n = deleteOp stm p := by
                simp [rmEntry, hd, globOp, hl, hr]
              rw [he] at h
              obtain ⟨hrp, hst⟩ := deleteOp_deleteFailed h
              rw [hst]
              have hstep : ∀ (s : St) (de : Path × Node),
                  de ∈ globChildren st.ns p →
                  nsLookup ((rmEntry fu s de.1 de.2).2).ns q =
                    nsLookup s.ns q := by
                intro s de hm
                apply rmEntry_frame
                cases hb : q.hasPfx de.1 with
                | false => rfl
                | true =>
                    have h1 := hasPfx_nElem hq
                    have h2 := hasPfx_nElem hb
                    have h3 := isChildOf_nElem (globChildren_mem hm).2
                    rw [hrp] at h1
                    omega
              have hrl := runList_rel
                (fun a b => nsLookup b.ns q = nsLookup a.ns q)
                (fun s => rfl) (fun a b c h1 h2 => h2.trans h1) _
                (globChildren st.ns p) hstep st
              rw [hr] at hrl
              exact hrl
      · have he : rmEntry (fu + 1) st p n = deleteOp st p := by
          simp [rmEntry, hd]
        rw [he] at h
        rw [(deleteOp_deleteFailed h).2]

/-- C2: Delete works post-order.  On success, the events `rmEntry`
appends are deletions of strict descendants of the entry, followed
last by the deletion of the entry itself, and (for a directory) they
include a deletion of every direct child — children before the parent,
at every level, since the statement applies to every recursive call.
On a failure to delete a descendant `r`, every strict ancestor of `r`
keeps exactly its old binding in the returned state: the parent of `r`
and all other ancestors are still present when the error is returned. -/
theorem delete_postorder :
    (∀ (fuel : Nat) (st : St) (p : Path) (n : Node) (st1 : St),
      rmEntry fuel st p n = (none, st1) →
      ∃ mid, st1.events = st.events ++ mid ++ [.del p] ∧
        (∀ ev ∈ mid, ∃ r, ev = .del r ∧ r.hasPfx p = true ∧
          p.nElem < r.nElem) ∧
        (n.isDir = true →
          ∀ de ∈ globChildren st.ns p, Ev.del de.1 ∈ mid)) ∧
    (∀ (fuel : Nat) (st : St) (p : Path) (n : Node) (r : Path) (st1 : St),
      (st.ns.map Prod.fst).Nodup →
      rmEntry fuel st p n = (some (.deleteFailed r), st1) →
      ∀ q, r.hasPfx q = true → q ≠ r →
        nsLookup st1.ns q = nsLookup st.ns q) :=
  ⟨fun fuel st p n st1 h => rmEntry_success_trace fuel st p n st1 h,
   fun fuel st p n r st1 hnd h q h1 h2 =>
     rmEntry_fail_ancestors fuel st p n r st1 hnd h q h1 h2⟩

/-- C2 witness: deleting `/a` over the demo tree appends the deletions
of the descendants before `del /a` (post-order); with the deletion of
`/a/b/g` injected to fail, the ancestors `/a/b` and `/a` keep their
bindings in the returned state. -/
theorem delete_postorder_witness :
    (∃ mid, ((rmEntry 5 stDemo (up ["a"]) .dir).2).events =
        stDemo.events ++ mid ++ [.del (up ["a"])] ∧
      (∀ ev ∈ mid, ∃ r, ev = .del r ∧ r.hasPfx (up ["a"]) = true ∧
        (up ["a"]).nElem < r.nElem) ∧
      (Node.dir.isDir = true →
        ∀ de ∈ globChildren stDemo.ns (up ["a"]), Ev.del de.1 ∈ mid)) ∧
    nsLookup ((rmEntry 5 stFailG (up ["a"]) .dir).2).ns (up ["a", "b"]) =
      nsLookup stFailG.ns (up ["a", "b"]) ∧
    nsLookup ((rmEntry 5 stFailG (up ["a"]) .dir).2).ns (up ["a"]) =
      nsLookup stFailG.ns (up ["a"]) := by
  refine ⟨?_, ?_, ?_⟩
  · exact delete_postorder.1 5 stDemo (up ["a"]) .dir
      ((rmEntry 5 stDemo (up ["a"]) .dir).2) (by decide)
  · exact delete_postorder.2 5 stFailG (up ["a"]) .dir (up ["a", "b", "g"])
      ((rmEntry 5 stFailG (up ["a"]) .dir).2) (by decide) (by decide)
      (up ["a", "b"]) (by decide) (by decide)
  · exact delete_postorder.2 5 stFailG (up ["a"]) .dir (up ["a", "b", "g"])
      ((rmEntry 5 stFailG (up ["a"]) .dir).2) (by decide) (by decide)
      (up ["a"]) (by decide) (by decide)

/-! ## The copied image of a source-subtree path -/

/-- Where `copyEntry dstDir s` places the subtree path `q` (with `s` a
prefix of `q`): under the same-named child directory of the
destination, keeping the remainder of `q` below `s`. -/
def translate (dstDir s q : Path) : Path :=
  ⟨dstDir.user, dstDir.elems ++ s.lastE :: q.elems.drop s.elems.length⟩

/-- All strict intermediate prefixes of `q` above `s` are directories:
the ancestor chain a well-formed namespace provides between a directory
`s` and an entry `q` below it. -/
def chainOkB (ns : Namespace) (s q : Path) : Bool :=
  (List.range q.elems.length).all fun k =>
    decide (k < s.elems.length) ||
      (nsLookup ns ⟨q.user, q.elems.take k⟩ == some Node.dir)

/-- Extensionality for paths. -/
lemma path_ext {a b : Path} (hu : a.user = b.user)
    (he : a.elems = b.elems) : a = b := by
  cases a
  cases b
  cases hu
  cases he
  rfl

/-- `chainOkB` pointwise. -/
lemma chainOkB_iff (ns : Namespace) (s q : Path) :
    chainOkB ns s q = true ↔
      ∀ k, s.elems.length ≤ k → k < q.elems.length →
        nsLookup ns ⟨q.user, q.elems.take k⟩ = some .dir := by
  simp only [chainOkB, List.all_eq_true, List.mem_range, Bool.or_eq_true,
    decide_eq_true_eq, beq_iff_eq]
  constructor
  · intro h k h1 h2
    rcases h k h2 with h | h
    · omega
    · exact h
  · intro h k h2
    by_cases h1 : k < s.elems.length
    · exact Or.inl h1
    · exact Or.inr (h k (by omega) h2)

/-- A successful lookup is a member binding. -/
lemma nsLookup_mem {ns : Namespace} {q : Path} {n : Node}
    (h : nsLookup ns q = some n) : (q, n) ∈ ns := by
  induction ns with
  | nil => simp [nsLookup] at h
  | cons e rest ih =>
      rcases e with ⟨a, b⟩
      by_cases ha : a = q
      · simp [nsLookup, ha] at h
        exact List.mem_cons.2 (Or.inl (by rw [ha, h]))
      · simp [nsLookup, ha] at h
        exact List.mem_cons_of_mem _ (ih h)

/-- Truncating `q` no shorter than `s` keeps `s` as a prefix. -/
lemma takePath_under {s q : Path} (hq : q.hasPfx s = true) {k : Nat}
    (hk : s.elems.length ≤ k) :
    (⟨q.user, q.elems.take k⟩ : Path).hasPfx s = true := by
  obtain ⟨hu, hpre⟩ := (hasPfx_iff q s).1 hq
  rw [hasPfx_iff]
  refine ⟨hu, ?_⟩
  have hs : s.elems = q.elems.take s.elems.length :=
    List.prefix_iff_eq_take.1 hpre
  rw [List.prefix_iff_eq_take]
  show s.elems = (q.elems.take k).take s.elems.length
  rw [List.take_take, Nat.min_eq_left hk]
  exact hs

/-- Truncating `q` at the length of its prefix `s` gives `s`. -/
lemma takePath_at_plen {s q : Path} (hq : q.hasPfx s = true) :
    (⟨q.user, q.elems.take s.elems.length⟩ : Path) = s := by
  obtain ⟨hu, hpre⟩ := (hasPfx_iff q s).1 hq
  exact path_ext hu (List.prefix_iff_eq_take.1 hpre).symm

/-- A strict extension is strictly longer. -/
lemma hasPfx_lt_of_ne {s q : Path} (hq : q.hasPfx s = true) (hne : q ≠ s) :
    s.elems.length < q.elems.length := by
  have hle : s.elems.length ≤ q.elems.length := hasPfx_nElem hq
  rcases Nat.eq_or_lt_of_le hle with he | hlt
  · exact absurd (hasPfx_eq_of_nElem hq (Nat.le_of_eq he.symm)) hne
  · exact hlt

/-- The one-longer truncation of a strict extension of `s` is a direct
child of `s`. -/
lemma take_child {s q : Path} (hq : q.hasPfx s = true)
    (hlt : s.elems.length < q.elems.length) :
    isChildOf ⟨q.user, q.elems.take (s.elems.length + 1)⟩ s = true := by
  obtain ⟨hu, hpre⟩ := (hasPfx_iff q s).1 hq
  rw [isChildOf_iff]
  refine ⟨hu, by rw [List.length_take]; omega, ?_⟩
  have hs : s.elems = q.elems.take s.elems.length :=
    List.prefix_iff_eq_take.1 hpre
  rw [List.prefix_iff_eq_take]
  show s.elems = (q.elems.take (s.elems.length + 1)).take s.elems.length
  rw [List.take_take, Nat.min_eq_left (by omega)]
  exact hs

/-- A direct child is its parent's elements plus its last element. -/
lemma child_elems {a s : Path} (h : isChildOf a s = true) :
    a.elems = s.elems ++ [a.lastE] := by
  rw [isChildOf_iff] at h
  obtain ⟨hu, hlen, hpre⟩ := h
  have hs : s.elems = a.elems.take s.elems.length :=
    List.prefix_iff_eq_take.1 hpre
  have hidx : s.elems.length < a.elems.length := by omega
  have h2 : a.elems.take s.elems.length ++ [a.elems[s.elems.length]] =
      a.elems.take (s.elems.length + 1) :=
    List.take_concat_get' _ _ hidx
  have h3 : a.elems.take (s.elems.length + 1) = a.elems := by
    rw [← hlen]
    exact List.take_length _
  have h5 : a.elems = s.elems ++ [a.elems[s.elems.length]] := by
    conv_lhs => rw [← h3, ← h2, ← hs]
  have h4 : a.lastE = a.elems[s.elems.length] := by
    show a.elems.getLastD "" = _
    conv_lhs => rw [h5]
    exact List.getLastD_concat _ _ _
  rw [h4]
  exact h5

/-- Direct children of the same parent with the same last element are
the same path. -/
lemma isChildOf_eq_of_lastE {a b s : Path} (h1 : isChildOf a s = true)
    (h2 : isChildOf b s = true) (h : a.lastE = b.lastE) : a = b := by
  have e1 := child_elems h1
  have e2 := child_elems h2
  have hu1 := ((isChildOf_iff a s).1 h1).1
  have hu2 := ((isChildOf_iff b s).1 h2).1
  refine path_ext (hu1.trans hu2.symm) ?_
  rw [e1, h, ← e2]

/-- Translating the source itself gives the created child directory. -/
lemma translate_self (dstDir s : Path) :
    translate dstDir s s = dstDir.join s.lastE := by
  simp [translate, Path.join, List.drop_length]

/-- A one-element extension of `dst` that is a prefix of a translated
path must extend by the copied child's last element. -/
lemma translate_pfx_lastE {dst c q : Path} {x : String}
    (h : (translate dst c q).hasPfx (dst.join x) = true) : x = c.lastE := by
  obtain ⟨hu, hpre⟩ := (hasPfx_iff _ _).1 h
  have heq := List.prefix_iff_eq_take.1 hpre
  have hlen : (dst.join x).elems.length = dst.elems.length + 1 := by
    simp [Path.join]
  rw [hlen] at heq
  have htake : (translate dst c q).elems.take (dst.elems.length + 1) =
      dst.elems ++ [c.lastE] := by
    show (dst.elems ++ c.lastE :: q.elems.drop c.elems.length).take
        (dst.elems.length + 1) = dst.elems ++ [c.lastE]
    rw [List.take_append]
    rfl
  rw [htake] at heq
  have : dst.elems ++ [x] = dst.elems ++ [c.lastE] := heq
  have := List.append_cancel_left this
  simpa using this

/-- Translating a strict extension of `s` factors through the direct
child of `s` on the way to it. -/
lemma translate_step {dstDir s q : Path}
    (hlt : s.elems.length < q.elems.length) :
    translate dstDir s q =
      translate (dstDir.join s.lastE)
        ⟨q.user, q.elems.take (s.elems.length + 1)⟩ q := by
  refine path_ext (by rfl) ?_
  show dstDir.elems ++ s.lastE :: q.elems.drop s.elems.length =
    (dstDir.elems ++ [s.lastE]) ++
      (⟨q.user, q.elems.take (s.elems.length + 1)⟩ : Path).lastE ::
        q.elems.drop ((q.elems.take (s.elems.length + 1)).length)
  have hlen : (q.elems.take (s.elems.length + 1)).length =
      s.elems.length + 1 := by
    rw [List.length_take]
    omega
  have hc : (⟨q.user, q.elems.take (s.elems.length + 1)⟩ : Path).lastE =
      q.elems[s.elems.length] := by
    show (q.elems.take (s.elems.length + 1)).getLastD "" = _
    rw [← List.take_concat_get' q.elems s.elems.length hlt]
    exact List.getLastD_concat _ _ _
  rw [hc, hlen, List.append_assoc, List.singleton_append]
  congr 1
  congr 1
  exact List.drop_eq_getElem_cons hlt

/-! ## Frame and bookkeeping lemmas for Copy -/

/-- A successful `MakeDirectory` requires the path to be fresh, binds
it to a directory, and appends exactly one creation event. -/
lemma mkDirOp_none {st : St} {p : Path} {st1 : St}
    (h : mkDirOp st p = (none, st1)) :
    nsLookup st.ns p = none ∧ st1.ns = nsSet st.ns p .dir ∧
      st1.events = st.events ++ [.mkdir p] := by
  cases hl : nsLookup st.ns p with
  | some n => simp [mkDirOp, hl] at h
  | none =>
      simp [mkDirOp, hl] at h
      refine ⟨rfl, ?_, ?_⟩ <;> rw [← h]

/-- `mkDirOp` touches only its path. -/
lemma mkDirOp_frame (st : St) (p q : Path) (hq : q ≠ p) :
    nsLookup (mkDirOp st p).2.ns q = nsLookup st.ns q := by
  cases hl : nsLookup st.ns p with
  | some n => simp [mkDirOp, hl]
  | none =>
      simp [mkDirOp, hl]
      exact nsLookup_set_other _ _ _ _ hq

/-- `putDupOp` touches only its destination path. -/
lemma putDupOp_frame (st : St) (src dst q : Path) (hq : q ≠ dst) :
    nsLookup (putDupOp st src dst).2.ns q = nsLookup st.ns q := by
  cases hl : nsLookup st.ns src with
  | none => simp [putDupOp, hl]
  | some n =>
      simp [putDupOp, hl]
      exact nsLookup_set_other _ _ _ _ hq

/-- `putLinkOp` touches only its destination path. -/
lemma putLinkOp_frame (st : St) (t dst q : Path) (hq : q ≠ dst) :
    nsLookup (putLinkOp st t dst).2.ns q = nsLookup st.ns q := by
  simp [putLinkOp]
  exact nsLookup_set_other _ _ _ _ hq

/-- `copyEntry` touches only paths that extend the created destination
entry `dstDir/lastElem(src)`. -/
lemma copyEntry_frame (fuel : Nat) :
    ∀ (st : St) (dstDir p : Path) (n : Node) (q : Path),
    q.hasPfx (dstDir.join p.lastE) = false →
    nsLookup ((copyEntry fuel st dstDir p n).2).ns q = nsLookup st.ns q := by
  induction fuel with
  | zero => intro st dstDir p n q _; simp [copyEntry]
  | succ fu ih =>
      intro st dstDir p n q hq
      by_cases h0 : p.nElem = 0
      · simp [copyEntry, h0]
      by_cases h1 : dstDir.hasPfx p = true
      · simp [copyEntry, h0, h1]
      have hqdst : q ≠ dstDir.join p.lastE := by
        intro he
        rw [he, hasPfx_refl] at hq
        cases hq
      have he : copyEntry (fu + 1) st dstDir p n =
          copyDispatch (fun s2 d p2 n2 => copyEntry fu s2 d p2 n2)
            st dstDir p n := by
        simp [copyEntry, h0, h1]
      rw [he]
      cases n with
      | dir =>
          rcases hmk : mkDirOp st (dstDir.join p.lastE) with ⟨oe, stA⟩
          have hA : nsLookup stA.ns q = nsLookup st.ns q := by
            have := mkDirOp_frame st (dstDir.join p.lastE) q hqdst
            rwa [hmk] at this
          have hstep : ∀ (s2 : St) (de : Path × Node),
              de ∈ globChildren stA.ns p →
              nsLookup ((copyEntry fu s2 (dstDir.join p.lastE)
                de.1 de.2).2).ns q = nsLookup s2.ns q := by
            intro s2 de _
            apply ih
            cases hb : q.hasPfx ((dstDir.join p.lastE).join de.1.lastE) with
            | false => rfl
            | true =>
                have ht := hasPfx_trans hb (join_hasPfx _ _)
                rw [ht] at hq
                cases hq
          cases oe with
          | some e =>
              simp [copyDispatch, hmk]
              exact hA
          | none =>
              have hrl := runList_rel
                (fun a b => nsLookup b.ns q = nsLookup a.ns q)
                (fun s2 => rfl) (fun a b c h1 h2 => h2.trans h1) _
                (globChildren stA.ns p) hstep stA
              by_cases hl :
                  (globChildren stA.ns p).any (fun e => e.2.isLink) = true
              · simp [copyDispatch, hmk, globOp, hl]
                exact hrl.trans hA
              · simp [copyDispatch, hmk, globOp, hl]
                exact hrl.trans hA
      | link t =>
          have := putLinkOp_frame st t (dstDir.join p.lastE) q hqdst
          simpa [copyDispatch] using this
      | file c =>
          have := putDupOp_frame st p (dstDir.join p.lastE) q hqdst
          simpa [copyDispatch] using this

/-- `mkDirOp` preserves key uniqueness. -/
lemma mkDirOp_nodup (st : St) (p : Path)
    (h : (st.ns.map Prod.fst).Nodup) :
    (((mkDirOp st p).2).ns.map Prod.fst).Nodup := by
  cases hl : nsLookup st.ns p with
  | some n => simpa [mkDirOp, hl] using h
  | none =>
      simp [mkDirOp, hl]
      exact nsSet_nodup _ _ _ h

/-- `putDupOp` preserves key uniqueness. -/
lemma putDupOp_nodup (st : St) (src dst : Path)
    (h : (st.ns.map Prod.fst).Nodup) :
    (((putDupOp st src dst).2).ns.map Prod.fst).Nodup := by
  cases hl : nsLookup st.ns src with
  | none => simpa [putDupOp, hl] using h
  | some n =>
      simp [putDupOp, hl]
      exact nsSet_nodup _ _ _ h

/-- `copyEntry` preserves key uniqueness of the namespace. -/
lemma copyEntry_nodup (fuel : Nat) :
    ∀ (st : St) (dstDir p : Path) (n : Node),
    (st.ns.map Prod.fst).Nodup →
    (((copyEntry fuel st dstDir p n).2).ns.map Prod.fst).Nodup := by
  induction fuel with
  | zero => intro st dstDir p n h; simpa [copyEntry] using h
  | succ fu ih =>
      intro st dstDir p n h
      by_cases h0 : p.nElem = 0
      · simpa [copyEntry, h0] using h
      by_cases h1 : dstDir.hasPfx p = true
      · simpa [copyEntry, h0, h1] using h
      have he : copyEntry (fu + 1) st dstDir p n =
          copyDispatch (fun s2 d p2 n2 => copyEntry fu s2 d p2 n2)
            st dstDir p n := by
        simp [copyEntry, h0, h1]
      rw [he]
      cases n with
      | dir =>
          rcases hmk : mkDirOp st (dstDir.join p.lastE) with ⟨oe, stA⟩
          have hA : (stA.ns.map Prod.fst).Nodup := by
            have := mkDirOp_nodup st (dstDir.join p.lastE) h
            rwa [hmk] at this
          cases oe with
          | some e =>
              simp [copyDispatch, hmk]
              exact hA
          | none =>
              have hrl := runList_rel
                (fun a b => (a.ns.map Prod.fst).Nodup →
                  (b.ns.map Prod.fst).Nodup)
                (fun s2 hs => hs) (fun a b c h1 h2 hs => h2 (h1 hs)) _
                (globChildren stA.ns p)
                (fun s2 de _ => ih s2 (dstDir.join p.lastE) de.1 de.2) stA
              by_cases hl :
                  (globChildren stA.ns p).any (fun e => e.2.isLink) = true
              · simp [copyDispatch, hmk, globOp, hl]
                exact hrl hA
              · simp [copyDispatch, hmk, globOp, hl]
                exact hrl hA
      | link t =>
          simp [copyDispatch, putLinkOp]
          exact nsSet_nodup _ _ _ h
      | file c =>
          have := putDupOp_nodup st p (dstDir.join p.lastE) h
          simpa [copyDispatch] using this

/-- `copyEntry` only appends to the event trace. -/
lemma copyEntry_events (fuel : Nat) :
    ∀ (st : St) (dstDir p : Path) (n : Node),
    ∃ l, ((copyEntry fuel st dstDir p n).2).events = st.events ++ l := by
  induction fuel with
  | zero => intro st dstDir p n; exact ⟨[], by simp [copyEntry]⟩
  | succ fu ih =>
      intro st dstDir p n
      by_cases h0 : p.nElem = 0
      · exact ⟨[], by simp [copyEntry, h0]⟩
      by_cases h1 : dstDir.hasPfx p = true
      · exact ⟨[], by simp [copyEntry, h0, h1]⟩
      have he : copyEntry (fu + 1) st dstDir p n =
          copyDispatch (fun s2 d p2 n2 => copyEntry fu s2 d p2 n2)
            st dstDir p n := by
        simp [copyEntry, h0, h1]
      rw [he]
      cases n with
      | dir =>
          rcases hmk : mkDirOp st (dstDir.join p.lastE) with ⟨oe, stA⟩
          have hA : ∃ l, stA.events = st.events ++ l := by
            cases hl : nsLookup st.ns (dstDir.join p.lastE) with
            | some n2 =>
                have hmk2 : mkDirOp st (dstDir.join p.lastE) =
                    (some (.exist (dstDir.join p.lastE)), st) := by
                  simp [mkDirOp, hl]
                rw [hmk2] at hmk
                cases hmk
                exact ⟨[], by simp⟩
            | none =>
                have hmk2 : mkDirOp st (dstDir.join p.lastE) =
                    (none, { st with
                      ns := nsSet st.ns (dstDir.join p.lastE) .dir,
                      events := st.events ++
                        [.mkdir (dstDir.join p.lastE)] }) := by
                  simp [mkDirOp, hl]
                rw [hmk2] at hmk
                cases hmk
                exact ⟨[.mkdir (dstDir.join p.lastE)], rfl⟩
          rcases hA with ⟨l0, hl0⟩
          cases oe with
          | some e =>
              simp [copyDispatch, hmk]
              exact ⟨l0, hl0⟩
          | none =>
              have hrl := runList_rel
                (fun a b => ∃ l, b.events = a.events ++ l)
                (fun s2 => ⟨[], by simp⟩)
                (fun a b c h1 h2 => by
                  rcases h1 with ⟨l1, h1⟩
                  rcases h2 with ⟨l2, h2⟩
                  exact ⟨l1 ++ l2, by rw [h2, h1, List.append_assoc]⟩) _
                (globChildren stA.ns p)
                (fun s2 de _ => ih s2 (dstDir.join p.lastE) de.1 de.2) stA
              rcases hrl with ⟨l1, hl1⟩
              by_cases hl :
                  (globChildren stA.ns p).any (fun e => e.2.isLink) = true
              · simp [copyDispatch, hmk, globOp, hl]
                exact ⟨l0 ++ l1, by
                  rw [hl1, hl0, List.append_assoc]⟩
              · simp [copyDispatch, hmk, globOp, hl]
                exact ⟨l0 ++ l1, by
                  rw [hl1, hl0, List.append_assoc]⟩
      | link t =>
          exact ⟨[.putlink t (dstDir.join p.lastE)],
            by simp [copyDispatch, putLinkOp]⟩
      | file c =>
          cases hl : nsLookup st.ns p with
          | none => exact ⟨[], by simp [copyDispatch, putDupOp, hl]⟩
          | some n2 =>
              exact ⟨[.put p (dstDir.join p.lastE)],
                by simp [copyDispatch, putDupOp, hl]⟩

/-- Transferring a directory chain along a namespace change that fixes
everything under `s`. -/
lemma chainOkB_frame {ns2 ns : Namespace} {s c q : Path}
    (hcs : isChildOf c s = true) (hq : q.hasPfx s = true)
    (hpres : ∀ r : Path, r.hasPfx s = true → nsLookup ns2 r = nsLookup ns r)
    (h : chainOkB ns c q = true) : chainOkB ns2 c q = true := by
  rw [chainOkB_iff] at h ⊢
  intro k h1 h2
  have hcl : c.elems.length = s.elems.length + 1 := isChildOf_nElem hcs
  rw [hpres _ (takePath_under hq (by omega))]
  exact h k h1 h2

/-- The subtree-copy correctness statement at a given fuel: a
successful `copyEntry` reproduces, at the translated location, every
binding of the source subtree that is reachable through a chain of
directories, with the same node (same directory kind, same link
target, same file content reference). -/
def SubtreeOK (fuel : Nat) : Prop :=
  ∀ (st : St) (dstDir s : Path) (n : Node) (st1 : St),
    (st.ns.map Prod.fst).Nodup →
    (∀ r : Path, r.hasPfx (dstDir.join s.lastE) = true →
      r.hasPfx s = true → False) →
    nsLookup st.ns s = some n →
    copyEntry fuel st dstDir s n = (none, st1) →
    ∀ (q : Path) (nq : Node), q.hasPfx s = true →
      nsLookup st.ns q = some nq → chainOkB st.ns s q = true →
      nsLookup st1.ns (translate dstDir s q) = some nq

/-- Children loop of the directory case: if the loop succeeds and
`(c, nc)` is among the children being copied, the subtree below `c`
lands correctly under `dst` — the copies of the other children live in
sibling subtrees (distinct last elements) and never disturb it. -/
lemma runList_copy_subtree (fu : Nat) (hrec : SubtreeOK fu)
    (dst s : Path)
    (hdj : ∀ r : Path, r.hasPfx dst = true → r.hasPfx s = true → False) :
    ∀ (des : List (Path × Node)) (st st1 : St) (c : Path) (nc : Node)
      (q : Path) (nq : Node),
      (st.ns.map Prod.fst).Nodup →
      (des.map Prod.fst).Nodup →
      (∀ de ∈ des, isChildOf de.1 s = true) →
      (c, nc) ∈ des →
      nsLookup st.ns c = some nc →
      q.hasPfx c = true →
      nsLookup st.ns q = some nq →
      chainOkB st.ns c q = true →
      runList (fun s2 de => copyEntry fu s2 dst de.1 de.2) st des =
        (none, st1) →
      nsLookup st1.ns (translate dst c q) = some nq := by
  intro des
  induction des with
  | nil =>
      intro st st1 c nc q nq _ _ _ hmem
      exact absurd hmem (List.not_mem_nil _)
  | cons de rest ih =>
      intro st st1 c nc q nq hnd hkeys hch hmem hc hqc hlq hchain hrun
      simp only [List.map_cons, List.nodup_cons] at hkeys
      have hchd : isChildOf de.1 s = true := hch de (List.mem_cons_self _ _)
      rcases hf : copyEntry fu st dst de.1 de.2 with ⟨oe, stm⟩
      cases oe with
      | some e =>
          have he : runList (fun s2 de => copyEntry fu s2 dst de.1 de.2) st
              (de :: rest) = (some e, stm) := by
            simp [runList, hf]
          rw [he] at hrun
          simp at hrun
      | none =>
          have he : runList (fun s2 de => copyEntry fu s2 dst de.1 de.2) st
              (de :: rest) =
              runList (fun s2 de => copyEntry fu s2 dst de.1 de.2) stm
                rest := by
            simp [runList, hf]
          rw [he] at hrun
          rcases List.mem_cons.1 hmem with hde | hmem2
          · have hde1 : de.1 = c := by rw [← hde]
            have hde2 : de.2 = nc := by rw [← hde]
            have hdjc : ∀ r : Path, r.hasPfx (dst.join c.lastE) = true →
                r.hasPfx c = true → False := by
              intro r hr1 hr2
              exact hdj r (hasPfx_trans hr1 (join_hasPfx _ _))
                (hasPfx_trans hr2 (isChildOf_hasPfx (hde1 ▸ hchd)))
            have hcall : copyEntry fu st dst c nc = (none, stm) := by
              rw [← hde1, ← hde2]
              exact hf
            have hmid := hrec st dst c nc stm hnd hdjc hc hcall q nq hqc
              hlq hchain
            have hpres := runList_rel
              (fun a b => nsLookup b.ns (translate dst c q) =
                nsLookup a.ns (translate dst c q))
              (fun s2 => rfl) (fun a b c2 h1 h2 => h2.trans h1) _ rest
              (fun s2 de2 hm2 => by
                cases hb : (translate dst c q).hasPfx
                    (dst.join de2.1.lastE) with
                | false => exact copyEntry_frame fu s2 dst de2.1 de2.2 _ hb
                | true =>
                    exfalso
                    have hx : de2.1.lastE = c.lastE := translate_pfx_lastE hb
                    have heq : de2.1 = c := isChildOf_eq_of_lastE
                      (hch de2 (List.mem_cons_of_mem _ hm2))
                      (hde1 ▸ hchd) hx
                    have hmm : de2.1 ∈ rest.map Prod.fst :=
                      List.mem_map_of_mem Prod.fst hm2
                    rw [heq, ← hde1] at hmm
                    exact hkeys.1 hmm) stm
            rw [hrun] at hpres
            rw [hpres]
            exact hmid
          · have hcs : c.hasPfx s = true :=
              isChildOf_hasPfx (hch (c, nc) hmem)
            have hqs : q.hasPfx s = true := hasPfx_trans hqc hcs
            have hframe : ∀ r : Path, r.hasPfx s = true →
                nsLookup stm.ns r = nsLookup st.ns r := by
              intro r hr
              have hb : r.hasPfx (dst.join de.1.lastE) = false := by
                cases hb2 : r.hasPfx (dst.join de.1.lastE) with
                | false => rfl
                | true =>
                    exact (hdj r (hasPfx_trans hb2 (join_hasPfx _ _))
                      hr).elim
              have := copyEntry_frame fu st dst de.1 de.2 r hb
              rwa [hf] at this
            have hndm : (stm.ns.map Prod.fst).Nodup := by
              have := copyEntry_nodup fu st dst de.1 de.2 hnd
              rwa [hf] at this
            have hcm : nsLookup stm.ns c = some nc := by
              rw [hframe c hcs]
              exact hc
            have hlqm : nsLookup stm.ns q = some nq := by
              rw [hframe q hqs]
              exact hlq
            have hchm : chainOkB stm.ns c q = true :=
              chainOkB_frame (hch (c, nc) hmem) hqs hframe hchain
            exact ih stm st1 c nc q nq hndm hkeys.2
              (fun d hd2 => hch d (List.mem_cons_of_mem _ hd2)) hmem2
              hcm hqc hlqm hchm hrun

/-- Subtree-copy correctness of `copyEntry`, by induction on the
fuel: once the same-named destination directory is created, each
direct child of the source is copied recursively into it, so every
chain-reachable binding of the source subtree reappears, unchanged, at
its translated destination path. -/
lemma copyEntry_subtree : ∀ fuel : Nat, SubtreeOK fuel := by
  intro fuel
  induction fuel with
  | zero =>
      intro st dstDir s n st1 _ _ _ hok
      simp [copyEntry] at hok
  | succ fu ih =>
      intro st dstDir s n st1 hnd hdj hself hok q nq hq hlq hch
      by_cases h0 : s.nElem = 0
      · simp [copyEntry, h0] at hok
      by_cases h1 : dstDir.hasPfx s = true
      · simp [copyEntry, h0, h1] at hok
      rw [show copyEntry (fu + 1) st dstDir s n =
          copyDispatch (fun s2 d p2 n2 => copyEntry fu s2 d p2 n2)
            st dstDir s n from by simp [copyEntry, h0, h1]] at hok
      cases n with
      | link t =>
          by_cases hqs : q = s
          · subst hqs
            have hnq : nq = .link t := by
              rw [hself] at hlq
              injection hlq with h2
              exact h2.symm
            rw [show copyDispatch
                  (fun s2 d p2 n2 => copyEntry fu s2 d p2 n2)
                  st dstDir q (.link t) =
                (none, { st with
                  ns := nsSet st.ns (dstDir.join q.lastE) (.link t),
                  events := st.events ++
                    [.putlink t (dstDir.join q.lastE)] }) from by
              simp [copyDispatch, putLinkOp]] at hok
            cases hok
            rw [translate_self, hnq]
            exact nsLookup_set_self _ _ _
          · exfalso
            have hlt := hasPfx_lt_of_ne hq hqs
            have hk := (chainOkB_iff _ _ _).1 hch s.elems.length
              (le_refl _) hlt
            rw [takePath_at_plen hq, hself] at hk
            injection hk with h2
            cases h2
      | file c0 =>
          by_cases hqs : q = s
          · subst hqs
            have hnq : nq = .file c0 := by
              rw [hself] at hlq
              injection hlq with h2
              exact h2.symm
            rw [show copyDispatch
                  (fun s2 d p2 n2 => copyEntry fu s2 d p2 n2)
                  st dstDir q (.file c0) =
                (none, { st with
                  ns := nsSet st.ns (dstDir.join q.lastE) (.file c0),
                  events := st.events ++
                    [.put q (dstDir.join q.lastE)] }) from by
              simp [copyDispatch, putDupOp, hself]] at hok
            cases hok
            rw [translate_self, hnq]
            exact nsLookup_set_self _ _ _
          · exfalso
            have hlt := hasPfx_lt_of_ne hq hqs
            have hk := (chainOkB_iff _ _ _).1 hch s.elems.length
              (le_refl _) hlt
            rw [takePath_at_plen hq, hself] at hk
            injection hk with h2
            cases h2
      | dir =>
          rcases hmk : mkDirOp st (dstDir.join s.lastE) with ⟨oemk, stA⟩
          cases oemk with
          | some e =>
              rw [show copyDispatch
                    (fun s2 d p2 n2 => copyEntry fu s2 d p2 n2)
                    st dstDir s .dir = (some e, stA) from by
                simp [copyDispatch, hmk]] at hok
              simp at hok
          | none =>
              obtain ⟨hdabs, hAns, hAev⟩ := mkDirOp_none hmk
              have hrun : runList
                  (fun s2 de => copyEntry fu s2 (dstDir.join s.lastE)
                    de.1 de.2) stA (globChildren stA.ns s) =
                  (none, st1) := by
                by_cases hl :
                    (globChildren stA.ns s).any (fun e => e.2.isLink) =
                      true
                · simpa [copyDispatch, hmk, globOp, hl] using hok
                · simpa [copyDispatch, hmk, globOp, hl] using hok
              have hlookA : ∀ r : Path, r.hasPfx s = true →
                  nsLookup stA.ns r = nsLookup st.ns r := by
                intro r hr
                rw [hAns]
                apply nsLookup_set_other
                intro he2
                exact hdj r (by rw [he2]; exact hasPfx_refl _) hr
              have hndA : (stA.ns.map Prod.fst).Nodup := by
                rw [hAns]
                exact nsSet_nodup _ _ _ hnd
              by_cases hqs : q = s
              · subst hqs
                have hnq : nq = .dir := by
                  rw [hself] at hlq
                  injection hlq with h2
                  exact h2.symm
                rw [translate_self, hnq]
                have hA : nsLookup stA.ns (dstDir.join q.lastE) =
                    some .dir := by
                  rw [hAns]
                  exact nsLookup_set_self _ _ _
                have hpres := runList_rel
                  (fun a b => nsLookup b.ns (dstDir.join q.lastE) =
                    nsLookup a.ns (dstDir.join q.lastE))
                  (fun s2 => rfl) (fun a b c h1 h2 => h2.trans h1) _
                  (globChildren stA.ns q)
                  (fun s2 de _ => copyEntry_frame fu s2
                    (dstDir.join q.lastE) de.1 de.2 _
                    (hasPfx_join_self _ _)) stA
                rw [hrun] at hpres
                rw [hpres]
                exact hA
              · have hlt : s.elems.length < q.elems.length :=
                  hasPfx_lt_of_ne hq hqs
                have hchild : isChildOf
                    ⟨q.user, q.elems.take (s.elems.length + 1)⟩ s = true :=
                  take_child hq hlt
                have hqc : q.hasPfx
                    ⟨q.user, q.elems.take (s.elems.length + 1)⟩ = true := by
                  rw [hasPfx_iff]
                  exact ⟨rfl, List.take_prefix _ _⟩
                have hcex : ∃ nc, nsLookup st.ns
                    ⟨q.user, q.elems.take (s.elems.length + 1)⟩ =
                      some nc := by
                  by_cases hq1 : q.elems.length = s.elems.length + 1
                  · refine ⟨nq, ?_⟩
                    have hcq : (⟨q.user,
                        q.elems.take (s.elems.length + 1)⟩ : Path) = q :=
                      path_ext rfl (by
                        show q.elems.take (s.elems.length + 1) = q.elems
                        rw [← hq1]
                        exact List.take_length _)
                    rw [hcq]
                    exact hlq
                  · exact ⟨.dir, (chainOkB_iff _ _ _).1 hch
                      (s.elems.length + 1) (by omega) (by omega)⟩
                obtain ⟨nc, hc⟩ := hcex
                have hchc : chainOkB st.ns
                    ⟨q.user, q.elems.take (s.elems.length + 1)⟩ q =
                      true := by
                  rw [chainOkB_iff] at hch ⊢
                  intro k hk1 hk2
                  apply hch k ?_ hk2
                  have hlc : (q.elems.take (s.elems.length + 1)).length =
                      s.elems.length + 1 := by
                    rw [List.length_take]
                    omega
                  have : (⟨q.user, q.elems.take
                      (s.elems.length + 1)⟩ : Path).elems.length =
                      s.elems.length + 1 := hlc
                  omega
                have hcA : nsLookup stA.ns
                    ⟨q.user, q.elems.take (s.elems.length + 1)⟩ =
                      some nc := by
                  rw [hlookA _ (isChildOf_hasPfx hchild)]
                  exact hc
                have hlqA : nsLookup stA.ns q = some nq := by
                  rw [hlookA q hq]
                  exact hlq
                have hchA : chainOkB stA.ns
                    ⟨q.user, q.elems.take (s.elems.length + 1)⟩ q =
                      true :=
                  chainOkB_frame hchild hq hlookA hchc
                have hmemdes : (⟨q.user,
                    q.elems.take (s.elems.length + 1)⟩, nc) ∈
                      globChildren stA.ns s :=
                  List.mem_filter.2 ⟨nsLookup_mem hcA, hchild⟩
                have hfin := runList_copy_subtree fu ih
                  (dstDir.join s.lastE) s hdj (globChildren stA.ns s)
                  stA st1 _ nc q nq hndA (globChildren_nodup hndA)
                  (fun de hm => (globChildren_mem hm).2) hmemdes hcA hqc
                  hlqA hchA hrun
                rw [translate_step hlt]
                exact hfin

/-- C1: for a directory source (with destination subtree disjoint from
the source subtree, as the prefix guard plus a fresh destination
ensure), a successful `copyEntry` first creates the same-named child
directory under the destination — the first appended event is its
`mkdir`, before any child is copied — and then recursively copies each
direct child (obtained by the single-level glob) into it, so that
afterwards every binding of the source subtree reachable through its
directory chain exists at the translated path under the destination
with an identical node: directories as directories, and every copied
file carrying the same content reference as its original.  The theorem
is universally quantified, so it applies to every directory entry
reached by the recursion. -/
theorem copy_directory_recursion (fuel : Nat) (st : St) (dstDir s : Path)
    (st1 : St)
    (hnd : (st.ns.map Prod.fst).Nodup)
    (hd1 : (dstDir.join s.lastE).hasPfx s = false)
    (hd2 : s.hasPfx (dstDir.join s.lastE) = false)
    (hself : nsLookup st.ns s = some .dir)
    (hok : copyEntry fuel st dstDir s .dir = (none, st1)) :
    (∃ rest, st1.events = st.events ++
      .mkdir (dstDir.join s.lastE) :: rest) ∧
    (∀ (q : Path) (nq : Node), q.hasPfx s = true →
      nsLookup st.ns q = some nq → chainOkB st.ns s q = true →
      nsLookup st1.ns (translate dstDir s q) = some nq) := by
  constructor
  · cases fuel with
    | zero => simp [copyEntry] at hok
    | succ fu =>
        by_cases h0 : s.nElem = 0
        · simp [copyEntry, h0] at hok
        by_cases h1 : dstDir.hasPfx s = true
        · simp [copyEntry, h0, h1] at hok
        rw [show copyEntry (fu + 1) st dstDir s .dir =
            copyDispatch (fun s2 d p2 n2 => copyEntry fu s2 d p2 n2)
              st dstDir s .dir from by simp [copyEntry, h0, h1]] at hok
        rcases hmk : mkDirOp st (dstDir.join s.lastE) with ⟨oemk, stA⟩
        cases oemk with
        | some e =>
            rw [show copyDispatch
                  (fun s2 d p2 n2 => copyEntry fu s2 d p2 n2)
                  st dstDir s .dir = (some e, stA) from by
              simp [copyDispatch, hmk]] at hok
            simp at hok
        | none =>
            obtain ⟨_, _, hAev⟩ := mkDirOp_none hmk
            have hrun : runList
                (fun s2 de => copyEntry fu s2 (dstDir.join s.lastE)
                  de.1 de.2) stA (globChildren stA.ns s) =
                (none, st1) := by
              by_cases hl :
                  (globChildren stA.ns s).any (fun e => e.2.isLink) = true
              · simpa [copyDispatch, hmk, globOp, hl] using hok
              · simpa [copyDispatch, hmk, globOp, hl] using hok
            have hev := runList_rel
              (fun a b => ∃ l, b.events = a.events ++ l)
              (fun s2 => ⟨[], by simp⟩)
              (fun a b c h1 h2 => by
                rcases h1 with ⟨l1, h1⟩
                rcases h2 with ⟨l2, h2⟩
                exact ⟨l1 ++ l2, by rw [h2, h1, List.append_assoc]⟩) _
              (globChildren stA.ns s)
              (fun s2 de _ => copyEntry_events fu s2
                (dstDir.join s.lastE) de.1 de.2) stA
            rw [hrun] at hev
            rcases hev with ⟨l, hl2⟩
            exact ⟨l, by
              rw [hl2, hAev, List.append_assoc, List.singleton_append]⟩
  · intro q nq hq hlq hch
    exact copyEntry_subtree fuel st dstDir s .dir st1 hnd
      (disjoint_of_not_pfx hd1 hd2) hself hok q nq hq hlq hch

/-- C1 witness: copying `/a` (containing `/a/f` and `/a/b/g`) into
`/dst` starts with the creation of `/dst/a` and reproduces the deep
file `/a/b/g` at `/dst/a/b/g` with its original content reference. -/
theorem copy_directory_recursion_witness :
    (∃ rest, ((copyEntry 5 stDemo (up ["dst"]) (up ["a"]) .dir).2).events =
      stDemo.events ++ .mkdir (up ["dst", "a"]) :: rest) ∧
    nsLookup ((copyEntry 5 stDemo (up ["dst"]) (up ["a"]) .dir).2).ns
      (up ["dst", "a", "b", "g"]) = some (.file 2) := by
  have h := copy_directory_recursion 5 stDemo (up ["dst"]) (up ["a"])
    ((copyEntry 5 stDemo (up ["dst"]) (up ["a"]) .dir).2)
    (by decide) (by decide) (by decide) (by decide) (by decide)
  exact ⟨h.1, h.2 (up ["a", "b", "g"]) (.file 2) (by decide) (by decide)
    (by decide)⟩

end TreeOp
